import Mathlib

/-!
Verification of the geolocation-resolution subsystem of wtl_service.

The definitions below are a shallow embedding of the Python sources
src/webapp/geolocate.py and src/webapp/story_builder.py.  Python dicts
are embedded as insertion-ordered association lists with unique keys;
floating point coordinates and scores are idealised as exact integers
or integer fractions; external libraries (sklearn DBSCAN, geopy
great_circle, shapely, the network) enter as parameters or as exact
models of their documented behaviour.  Python
`list.sort(key=..., reverse=True)` is a stable descending sort and is
embedded as a structural insertion sort with a non-strict comparison,
which computes in the kernel.
-/

namespace Wtl

/-! ## Definitions -/

/-- Python `list.sort` insertion step: place `x` before the first element
`y` with `r x y`; with a non-strict `r` this is stable. -/
def insertSorted (r : α → α → Bool) (x : α) : List α → List α
  | [] => [x]
  | y :: ys => if r x y then x :: y :: ys else y :: insertSorted r x ys

/-- Stable sort into `r`-order (for a reflexive total `r`); embeds Python
`sorted`/`list.sort`, which are stable. -/
def sortStable (r : α → α → Bool) : List α → List α
  | [] => []
  | x :: xs => insertSorted r x (sortStable r xs)

/-- Exact fraction `num / den`; Python floats that the code only ever
compares (probabilities, similarity scores) are idealised as fractions
with a positive denominator, so every comparison in the embedding is an
exact integer comparison that the kernel can evaluate. -/
structure Frac where
  num : ℤ
  den : ℤ
deriving DecidableEq

/-- Order on fractions by cross multiplication; agrees with the rational
order whenever both denominators are positive. -/
def Frac.le (a b : Frac) : Bool := a.num * b.den ≤ b.num * a.den

def Frac.lt (a b : Frac) : Bool := a.num * b.den < b.num * a.den

/-- The fixed probability cutoff 0.5 of StoryBuilder._get_core. -/
def halfFrac : Frac := ⟨1, 2⟩

/-- Values stored in an embedded Python location dict. -/
inductive PyVal
  | str (x : String)
  | int (x : ℤ)
  | frac (x : Frac)
  | strs (xs : List String)
  | table (m : List (String × Frac))
deriving DecidableEq

/-- An embedded Python dict with string keys: an insertion-ordered
association list. -/
abbrev PyDict := List (String × PyVal)

/-- Embeds `d.get('map_relevance', {})` for a location dict whose
map_relevance entry, when present, is a mapping category -> probability. -/
def getMapRelevance (d : PyDict) : List (String × Frac) :=
  match d.lookup "map_relevance" with
  | some (.table m) => m
  | _ => []

/-- Embeds the per-status qualification of StoryBuilder._get_core:
`status in d.get('map_relevance', {})` and
`d['map_relevance'][status] > .5`. -/
def statusHit (d : PyDict) (status : String) : Bool :=
  match (getMapRelevance d).lookup status with
  | some v => Frac.lt halfFrac v
  | none => false

/-- Embeds the two successive list comprehensions of _get_core for one
status: keep locations carrying the status key, then keep those with
probability above the cutoff. -/
def statusCandidates (locs : List PyDict) (status : String) : List PyDict :=
  (locs.filter (fun d => ((getMapRelevance d).lookup status).isSome)).filter
    (fun d => Frac.lt halfFrac (((getMapRelevance d).lookup status).getD ⟨0, 1⟩))

/-- Descending comparison on the status probability, used as the sort key
of _get_core. -/
def statusCompare (status : String) (a b : PyDict) : Bool :=
  Frac.le (((getMapRelevance b).lookup status).getD ⟨0, 1⟩)
    (((getMapRelevance a).lookup status).getD ⟨0, 1⟩)

/-- Embeds `sorted(candidates, key=lambda x: x['map_relevance'][status],
reverse=True)`: a stable descending sort on the status probability. -/
def statusRanked (locs : List PyDict) (status : String) : List PyDict :=
  sortStable (statusCompare status) (statusCandidates locs status)

/-- Embeds the `ranked` list of StoryBuilder._get_core: the core pass
followed by the relevant pass. -/
def rankedLocs (locs : List PyDict) : List PyDict :=
  statusRanked locs "core" ++ statusRanked locs "relevant"

/-- Output key set of StoryBuilder._get_core. -/
def keys_to_keep : List String :=
  ["address", "boundingbox", "lat", "lon", "mentions", "osm_url",
   "map_relevance", "text"]

/-- Embeds StoryBuilder._get_core: rank qualified locations (core pass
then relevant pass), return the first restricted to keys_to_keep, or the
empty dict when nothing qualifies. -/
def get_core (locations : List (String × PyDict)) : PyDict :=
  match rankedLocs (locations.map Prod.snd) with
  | [] => []
  | d :: _ => d.filter (fun kv => keys_to_keep.contains kv.1)

/-- A location qualifies when its core or relevant probability strictly
exceeds the 0.5 cutoff. -/
def coreQualified (d : PyDict) : Bool :=
  statusHit d "core" || statusHit d "relevant"

/-- Probabilities of a location dict are well formed when every fraction
stored under map_relevance has a positive denominator. -/
def probsWF (d : PyDict) : Prop :=
  ∀ kv ∈ getMapRelevance d, 0 < kv.2.den

instance : DecidablePred probsWF := fun _ => List.decidableBAll _ _

/-- Concrete location dict used to witness the core-selection theorem. -/
def wLocC5 : PyDict :=
  [("address", .str "Geneva, Switzerland"), ("lat", .int 46),
   ("map_relevance", .table [("core", ⟨9, 10⟩), ("relevant", ⟨3, 5⟩)]),
   ("probability", .frac ⟨1, 2⟩)]

/-- An HTTP response from the served relevance model as surfaced by the
requests library: terminal status code, body text, and the parsed JSON
body, a list of category -> probability mappings aligned positionally
with the posted locations. -/
structure ScoreResponse where
  status : ℕ
  text : String
  json : List (List (String × Frac))
deriving DecidableEq

/-- Embeds requests.Response.raise_for_status, which raises HTTPError
exactly for status codes in [400, 600). -/
def raise_for_status (r : ScoreResponse) : Bool :=
  decide (400 ≤ r.status) && decide (r.status < 600)

/-- Python `dict.update({k: v})`: replace the value in place when the key
exists, else append the pair at the end. -/
def pyDictUpdate (d : PyDict) (k : String) (v : PyVal) : PyDict :=
  if (d.map Prod.fst).contains k then
    d.map (fun kv => if kv.1 == k then (k, v) else kv)
  else d ++ [(k, v)]

/-- Embeds `for scores, data in zip(response.json(), ordered_locs.values()):
data.update({'map_relevance': scores})`: positional merge, truncating at
the shorter list, locations beyond the scores left unchanged. -/
def mergeScores : List (String × PyDict) → List (List (String × Frac)) →
    List (String × PyDict)
  | [], _ => []
  | ls, [] => ls
  | (n, d) :: ls, s :: ss =>
    (n, pyDictUpdate d "map_relevance" (.table s)) :: mergeScores ls ss

/-- Embeds Geolocate.classify: post the ordered location values to the
served model; on an HTTP error status re-raise carrying the response
body; otherwise merge the returned scores into the locations
positionally and return them. -/
def classify (locations : List (String × PyDict)) (r : ScoreResponse) :
    Except String (List (String × PyDict)) :=
  if raise_for_status r then .error r.text
  else .ok (mergeScores locations r.json)

/-- Address components excluded from compiled addresses
(EXCLUDED_ADDRESS_COMPONENTS in geolocate.py). -/
def EXCLUDED_ADDRESS_COMPONENTS : List String :=
  ["ISO_3166-1_alpha-2", "ISO_3166-1_alpha-3", "_category", "_type",
   "country_code", "road_type", "postcode"]

/-- A geocoding candidate as produced by geocode.CageCode._clean and
consumed by BackQuery and the cluster grower: raw address components, a
formatted address, coordinates, and an optional bounding box
(minlon, minlat, maxlon, maxlat); an absent or empty bounds tuple is
embedded as none.  Coordinates are idealised as integers; the claims
under verification never depend on fractional coordinate values. -/
structure Geocoding where
  components : List (String × String)
  address : String
  lat : ℤ
  lon : ℤ
  boundingbox : Option (ℤ × ℤ × ℤ × ℤ) := none
deriving DecidableEq

/-- Whitespace tokenizer accumulator. -/
def tokenizeAux : List Char → List Char → List String
  | [], acc => if acc.isEmpty then [] else [String.mk acc.reverse]
  | c :: cs, acc =>
    if c = ' ' then
      if acc.isEmpty then tokenizeAux cs []
      else String.mk acc.reverse :: tokenizeAux cs []
    else tokenizeAux cs (c :: acc)

/-- Modelled from the spec: the bag-of-words tokenisation inside
bagofwords/prep_text.py (not in the source tree); texts are split into
whitespace-separated terms. -/
def tokenize (s : String) : List String := tokenizeAux s.data []

/-- Embeds BackQuery._compile_address: join the values of the address
components not in the exclusion list (all embedded component values are
strings, so the `type(v) is str` guard always passes). -/
def compile_address (components : List (String × String)) : String :=
  String.intercalate " "
    ((components.filter
      (fun kv => !(EXCLUDED_ADDRESS_COMPONENTS.contains kv.1))).map Prod.snd)

/-- Modelled from the spec: the TF-IDF weight of one term of a tokenised
text, term frequency times the inverse-document-frequency weight
assigned by the fitted vectorizer (the idf parameter). -/
def termWeight (idf : String → ℤ) (toks : List String) (w : String) : ℤ :=
  (toks.count w : ℤ) * idf w

/-- Vocabulary shared by two tokenised texts. -/
def vocabOf (t1 t2 : List String) : List String := (t1 ++ t2).dedup

/-- Dot product of the TF-IDF vectors of two tokenised texts. -/
def dotWeight (idf : String → ℤ) (t1 t2 : List String) : ℤ :=
  ((vocabOf t1 t2).map (fun w => termWeight idf t1 w * termWeight idf t2 w)).sum

/-- Modelled from the spec: bagofwords/prep_text.build_vectorizer is not
in the source tree; per the spec the vectorizer produces L2-normalised
TF-IDF vectors and BackQuery.cosine is the dot product of the normalised
vectors.  This model returns the square of that cosine as an exact
fraction (squaring eliminates the square roots of the L2 norms and is
order-isomorphic to the cosine on these nonnegative vectors, with the
same zero and unit levels); a text with no in-vocabulary term has the
zero vector, whose cosine with anything is zero. -/
def cosineSim (idf : String → ℤ) (s1 s2 : String) : Frac :=
  let t1 := tokenize s1
  let t2 := tokenize s2
  let d := dotWeight idf t1 t2
  let n1 := dotWeight idf t1 t1
  let n2 := dotWeight idf t2 t2
  if n1 = 0 ∨ n2 = 0 then ⟨0, 1⟩ else ⟨d ^ 2, n1 * n2⟩

/-- The default BackQuery similarity threshold 0.1. -/
def BACKQUERY_THRESHOLD : Frac := ⟨1, 10⟩

/-- Embeds BackQuery._match: keep the geocodings whose compiled address
scores strictly above the threshold against the text, sort them by
descending score (Python list.sort with reverse=True is stable), and
drop the attached scores. -/
def backquery_match (cos : String → String → Frac) (threshold : Frac)
    (geocodings : List Geocoding) (text : String) : List Geocoding :=
  let qualified := geocodings.filterMap (fun g =>
    let distance := cos (compile_address g.components) text
    if Frac.lt threshold distance then some (g, distance) else none)
  (sortStable (fun a b => Frac.le b.2 a.2) qualified).map Prod.fst

/-- Embeds BackQuery._scrub_components on one geocoding:
`g.pop('components', {})` empties the raw components. -/
def scrub_components (g : Geocoding) : Geocoding := { g with components := [] }

/-- Embeds BackQuery.__call__: relearn the vectorizer (carried by the cos
parameter), deep-copy the input (the identity on embedded values), order
and select each place's geocodings, and when clean is set drop places
with no surviving geocoding and scrub raw components from the rest. -/
def backquery_call (cos : String → String → Frac) (threshold : Frac)
    (clean : Bool) (locations : List (String × List Geocoding))
    (text : String) : List (String × List Geocoding) :=
  let ordered := locations.map
    (fun nl => (nl.1, backquery_match cos threshold nl.2 text))
  if clean then
    (ordered.filter (fun nl => !nl.2.isEmpty)).map
      (fun nl => (nl.1, nl.2.map scrub_components))
  else ordered

/-- Geocoding with an empty compiled address, used against an empty
article text. -/
def wGeoEmpty : Geocoding :=
  { components := [], address := "", lat := 0, lon := 0 }

/-- Candidate whose compiled address shares terms with the witness text. -/
def wGeoGood : Geocoding :=
  { components := [("city", "Geneva"), ("country", "Switzerland"),
                   ("country_code", "ch")],
    address := "Geneva, Switzerland", lat := 46, lon := 6 }

/-- Candidate whose compiled address shares no term with the witness
text. -/
def wGeoBad : Geocoding :=
  { components := [("city", "Peoria")], address := "Peoria", lat := 40,
    lon := -89 }

/-- Errors raised by the embedded Geolocate.__call__: the explicit
ValueError for no candidate coordinates, and the Python KeyError that a
places lookup of an unknown name would raise while merging metadata. -/
inductive GeoErr
  | noData
  | keyFailure
deriving DecidableEq

/-- A resolved location: geocoding data merged with the cluster
co-membership list, the cluster fraction len(cluster)/len(candidates),
and the original place metadata, as built by the annotation loop of
Geolocate.__call__. -/
structure ResolvedLoc where
  geo : Geocoding
  cluster : List String
  clusterShare : Frac
  place : PyDict
deriving DecidableEq

/-- Annotation of the members of one cluster
(`data.update({'cluster': list(cluster), 'cluster_ratio': ...,
**places[name]})`); a name absent from places raises KeyError. -/
def annotateMembers (places : List (String × PyDict)) (total : ℕ)
    (names : List String) (size : ℕ) :
    List (String × Geocoding) → Except GeoErr (List (String × ResolvedLoc))
  | [] => .ok []
  | ng :: rest =>
    match places.lookup ng.1 with
    | none => .error .keyFailure
    | some p =>
      match annotateMembers places total names size rest with
      | .error e => .error e
      | .ok r =>
        .ok ((ng.1, ⟨ng.2, names, ⟨(size : ℤ), (total : ℤ)⟩, p⟩) :: r)

/-- Annotation of every cluster followed by the flattening
`{k: v for cluster in clusters for k, v in cluster.items()}` (clusters
are disjoint over names in the intended regime, so concatenation embeds
the comprehension). -/
def annotateClusters (places : List (String × PyDict)) (total : ℕ) :
    List (List (String × Geocoding)) →
    Except GeoErr (List (String × ResolvedLoc))
  | [] => .ok []
  | c :: rest =>
    match annotateMembers places total (c.map Prod.fst) c.length c with
    | .error e => .error e
    | .ok a =>
      match annotateClusters places total rest with
      | .error e => .error e
      | .ok r => .ok (a ++ r)

/-- Embeds Geolocate.__call__ from the point where the geocoder output
(candidates) is in hand: run the back query over the article text, raise
ValueError (noData) exactly when no place retains a candidate, otherwise
cluster with the cluster tool (GrowGeoCluster, whose DBSCAN core is
external, hence a parameter) and annotate.  The optional served-model
scoring stage (model_url) is outside this claim. -/
def geolocate_call
    (clusterTool :
      List (String × List Geocoding) → List (List (String × Geocoding)))
    (cos : String → String → Frac) (θ : Frac)
    (places : List (String × PyDict))
    (candidates : List (String × List Geocoding)) (text : String) :
    Except GeoErr (List (String × ResolvedLoc)) :=
  let cands := backquery_call cos θ true candidates text
  if cands.isEmpty then .error .noData
  else annotateClusters places cands.length (clusterTool cands)

/-- One-cluster tool used by the pipeline witness. -/
def wClusterTool (cands : List (String × List Geocoding)) :
    List (List (String × Geocoding)) :=
  [cands.map (fun nl => (nl.1, nl.2.headD wGeoEmpty))]

/-- Places metadata used by the pipeline witness. -/
def wPlacesC6 : List (String × PyDict) :=
  [("Geneva", [("text", .str "Geneva"), ("relevance", .frac ⟨4, 5⟩)])]

/-- Geocoder candidates used by the pipeline witness. -/
def wCandsC6 : List (String × List Geocoding) :=
  [("Geneva", [wGeoGood, wGeoBad])]

/-- Reference-semantics heap for the caller side of BackQuery.__call__:
candidate dicts live in cells addressed by allocation index and the
caller holds lists of cell addresses.  json.loads(json.dumps(...))
allocates fresh copies of every referenced cell; the later in-place
scrubs then touch only those copies. -/
structure GeoHeap where
  cells : List Geocoding
deriving DecidableEq

/-- Dereference an address; a dangling address yields a default cell,
which the embedded call never creates. -/
def heapGetD (h : GeoHeap) (a : ℕ) : Geocoding :=
  (h.cells[a]?).getD { components := [], address := "", lat := 0, lon := 0 }

/-- Overwrite one heap cell in place. -/
def heapSet (h : GeoHeap) (a : ℕ) (g : Geocoding) : GeoHeap :=
  ⟨h.cells.set a g⟩

/-- Allocate copies of the cells at the given addresses, returning the
fresh addresses: the deep copy of one place's candidate list. -/
def heapAllocCopies (h : GeoHeap) (refs : List ℕ) : GeoHeap × List ℕ :=
  (⟨h.cells ++ refs.map (heapGetD h)⟩,
    List.range' h.cells.length refs.length)

/-- The json round trip of the whole locations mapping: allocate fresh
copies of every referenced candidate dict, place by place. -/
def deepCopyLocs (h : GeoHeap) :
    List (String × List ℕ) → GeoHeap × List (String × List ℕ)
  | [] => (h, [])
  | (n, refs) :: rest =>
    let ac := heapAllocCopies h refs
    let dc := deepCopyLocs ac.1 rest
    (dc.1, (n, ac.2) :: dc.2)

/-- BackQuery._match over heap references: score each referenced dict
against the text, keep those above the threshold, sort by descending
score (stable). -/
def backquery_match_refs (cos : String → String → Frac) (θ : Frac)
    (h : GeoHeap) (refs : List ℕ) (text : String) : List ℕ :=
  let qualified := refs.filterMap (fun a =>
    let dist := cos (compile_address (heapGetD h a).components) text
    if Frac.lt θ dist then some (a, dist) else none)
  (sortStable (fun x y => Frac.le y.2 x.2) qualified).map Prod.fst

/-- BackQuery._scrub_components over the heap: pop the raw components of
each referenced dict in place. -/
def scrubHeap (h : GeoHeap) : List ℕ → GeoHeap
  | [] => h
  | a :: rest => scrubHeap (heapSet h a (scrub_components (heapGetD h a))) rest

/-- State of a BackQuery instance: its vectorizer, recorded by the texts
it was fitted on.  Modelled from the spec: prep_text.build_vectorizer is
outside the source tree; what the claims need is which call fitted the
vectorizer and on which texts. -/
structure BQState where
  vectorizer : Option (List String)
deriving DecidableEq

/-- Embeds BackQuery.__call__ with reference semantics: refit the
vectorizer from the corpus plus the article text, deep-copy the caller's
mapping, order and select per place, drop places left with no qualified
geocoding, scrub components of the survivors in place, and return the
new state, the heap, and the result mapping. -/
def backquery_call_heap (corpus : List String)
    (cos : String → String → Frac) (θ : Frac) (st : BQState) (h : GeoHeap)
    (locations : List (String × List ℕ)) (text : String) :
    BQState × GeoHeap × List (String × List ℕ) :=
  let dc := deepCopyLocs h locations
  let ordered := dc.2.map
    (fun nr => (nr.1, backquery_match_refs cos θ dc.1 nr.2 text))
  let kept := ordered.filter (fun nr => !nr.2.isEmpty)
  (⟨some (corpus ++ [text])⟩,
    scrubHeap dc.1 (kept.map Prod.snd).flatten, kept)

/-- A cluster: a Python dict mapping place name to its current
geocoding. -/
abbrev Cluster := List (String × Geocoding)

/-- Python `name in cluster`. -/
def hasKey (c : Cluster) (n : String) : Bool := (c.map Prod.fst).contains n

/-- Python `cluster.pop(name)` on a dict (unique keys): remove the entry
for the name, preserving the order of the rest. -/
def popKey (c : Cluster) (n : String) : Cluster :=
  c.filter (fun kv => !(kv.1 == n))

/-- Python `cluster.update({name: g})`: replace the value in place when
the key exists, else append. -/
def updateKey (c : Cluster) (n : String) (g : Geocoding) : Cluster :=
  if hasKey c n then c.map (fun kv => if kv.1 == n then (n, g) else kv)
  else c ++ [(n, g)]

/-- Spatial extent used by GrowGeoCluster._check_intersects: shapely
geometry.box(*boundingbox) when the bounds tuple is present, else
geometry.Point(lon, lat), the TypeError fallback. -/
inductive Extent
  | box (minlon minlat maxlon maxlat : ℤ)
  | point (lon lat : ℤ)
deriving DecidableEq

def extent_of (g : Geocoding) : Extent :=
  match g.boundingbox with
  | some (a, b, c, d) => .box a b c d
  | none => .point g.lon g.lat

/-- Bounds of an extent; a point is a degenerate box. -/
def Extent.bounds : Extent → ℤ × ℤ × ℤ × ℤ
  | .box a b c d => (a, b, c, d)
  | .point x y => (x, y, x, y)

/-- Exact model of the shapely test
`source.intersection(target).bounds`: for closed boxes and points the
intersection is nonempty (a truthy bounds tuple) iff the coordinate
intervals overlap, boundary contact included. -/
def geomIntersects (e1 e2 : Extent) : Bool :=
  decide (max e1.bounds.1 e2.bounds.1 ≤ min e1.bounds.2.2.1 e2.bounds.2.2.1)
    && decide (max e1.bounds.2.1 e2.bounds.2.1 ≤
      min e1.bounds.2.2.2 e2.bounds.2.2.2)

/-- Parameters of the grower: the cluster radius in km and the
great-circle distance oracle (external geopy), idealised over ℤ. -/
structure GeoParams where
  max_dist : ℤ
  distKm : ℤ × ℤ → ℤ × ℤ → ℤ

/-- Embeds GrowGeoCluster._check_intersects: the trial geolocation
intersects some member of the cluster. -/
def check_intersects (g : Geocoding) (cluster : Cluster) : Bool :=
  cluster.any (fun kv => geomIntersects (extent_of g) (extent_of kv.2))

/-- Embeds GrowGeoCluster._check_near: the trial geolocation is within
max_dist of some member of the cluster. -/
def check_near (P : GeoParams) (g : Geocoding) (cluster : Cluster) : Bool :=
  cluster.any (fun kv =>
    decide (P.distKm (g.lat, g.lon) (kv.2.lat, kv.2.lon) ≤ P.max_dist))

/-- Embeds GrowGeoCluster._match_to_cluster: the first cluster distinct
from the current one that is nonempty and either intersects the trial
geolocation or has a member within max_dist of it. -/
def match_to_cluster (P : GeoParams) (clusters : List Cluster) (idx : ℕ)
    (g : Geocoding) : Option ℕ :=
  (List.range clusters.length).find? (fun n =>
    decide (n ≠ idx) && decide (0 < (clusters.getD n []).length) &&
      (check_intersects g (clusters.getD n []) ||
        check_near P g (clusters.getD n [])))

/-- Embeds GrowGeoCluster._measure_gain: the sum of squared cluster
sizes. -/
def measure_gain (lens : List ℤ) : ℤ := (lens.map (fun l => l ^ 2)).sum

/-- Cluster sizes as Python ints. -/
def lensOf (clusters : List Cluster) : List ℤ :=
  clusters.map (fun c => (c.length : ℤ))

/-- The mutable attributes of a GrowGeoCluster pass: the cluster list,
the cached lengths and gain (_set_gain), and an instrumentation counter
of accepted moves. -/
structure PassState where
  clusters : List Cluster
  cluster_lens : List ℤ
  gain : ℤ
  moves : ℕ
deriving DecidableEq

/-- State at the start of a pass, after _set_gain. -/
def initPass (clusters : List Cluster) : PassState :=
  ⟨clusters, lensOf clusters, measure_gain (lensOf clusters), 0⟩

/-- Cluster lengths after `trial_lens[trial_idx] += 1`. -/
def bumped_lens (lens : List ℤ) (trialIdx : ℕ) : List ℤ :=
  lens.set trialIdx (lens.getD trialIdx 0 + 1)

/-- Embeds GrowGeoCluster._trial_lens: cluster lengths as they would be
if the move were accepted (`+= 1` at the target, then `-= 1` at the
source). -/
def trial_lens (st : PassState) (idx trialIdx : ℕ) : List ℤ :=
  (bumped_lens st.cluster_lens trialIdx).set idx
    ((bumped_lens st.cluster_lens trialIdx).getD idx 0 - 1)

/-- Embeds GrowGeoCluster._update: pop the place from its current
cluster, insert it into the target cluster, recompute lengths and gain
(_set_gain), and count the accepted move. -/
def grow_update (name : String) (g : Geocoding) (st : PassState)
    (idx trialIdx : ℕ) : PassState :=
  let popped := popKey (st.clusters.getD idx []) name
  let c1 := st.clusters.set idx popped
  let c2 := c1.set trialIdx (updateKey (c1.getD trialIdx []) name g)
  ⟨c2, lensOf c2, measure_gain (lensOf c2), st.moves + 1⟩

/-- Embeds GrowGeoCluster._try_move: match the candidate to a proximal
cluster and accept the move exactly when it strictly increases the gain;
returns the new state and the current cluster index of the place
(self.idx). -/
def try_move (P : GeoParams) (name : String) (st : PassState) (idx : ℕ)
    (g : Geocoding) : PassState × ℕ :=
  match match_to_cluster P st.clusters idx g with
  | none => (st, idx)
  | some t =>
    if st.gain < measure_gain (trial_lens st idx t) then
      (grow_update name g st idx t, t)
    else (st, idx)

/-- Embeds GrowGeoCluster._get_idx: first cluster containing the name;
none embeds the IndexError on an unassigned name. -/
def get_idx (clusters : List Cluster) (name : String) : Option ℕ :=
  clusters.findIdx? (fun c => hasKey c name)

/-- One place of a pass: locate the place, then try each of its
candidate geolocations in order. -/
def place_step (P : GeoParams) (st : PassState)
    (entry : String × List Geocoding) : Option PassState :=
  match get_idx st.clusters entry.1 with
  | none => none
  | some i =>
    some (entry.2.foldl (fun p g => try_move P entry.1 p.1 p.2 g) (st, i)).1

/-- One full pass of GrowGeoCluster.grow over every (place, candidate)
pair. -/
def run_pass (P : GeoParams) (clusters : List Cluster)
    (cands : List (String × List Geocoding)) : Option PassState :=
  cands.foldlM (place_step P) (initPass clusters)

/-- Embeds the while-loop of GrowGeoCluster.grow: shuffle the clusters
(the shufs parameter supplies the permutation of each pass), run a pass,
stop when the gain did not change, returning the nonempty clusters, the
number of accepted moves, and a convergence flag; the fuel bounds the
number of passes (the loop of the source runs unboundedly; the
termination theorem shows the flagged exit is always reached with
sufficient fuel). -/
def grow_loop (P : GeoParams) (shufs : ℕ → List Cluster → List Cluster)
    (cands : List (String × List Geocoding)) :
    ℕ → List Cluster → Option (List Cluster × ℕ × Bool)
  | 0, clusters => some (clusters, 0, false)
  | fuel + 1, clusters =>
    let cs := shufs fuel clusters
    match run_pass P cs cands with
    | none => none
    | some st =>
      if st.gain = measure_gain (lensOf cs) then
        some (st.clusters.filter (fun c => !c.isEmpty), st.moves, true)
      else
        match grow_loop P shufs cands fuel st.clusters with
        | none => none
        | some (r, m, b) => some (r, st.moves + m, b)

/-- Embeds GrowGeoCluster.grow (the json round trip deep copy is the
identity on embedded values). -/
def grow (P : GeoParams) (shufs : ℕ → List Cluster → List Cluster)
    (fuel : ℕ) (clusters : List Cluster)
    (cands : List (String × List Geocoding)) :
    Option (List Cluster × ℕ × Bool) :=
  grow_loop P shufs cands fuel clusters

/-- Embeds coords_from_locations: the lat/lon pairs of the locations
(every embedded geocoding carries lat/lon, so the KeyError skip never
fires); an empty result is the ValueError raise. -/
def coords_from_locations (locations : Cluster) : Option (List (ℤ × ℤ)) :=
  let coords := locations.map (fun kv => (kv.2.lat, kv.2.lon))
  if coords.isEmpty then none else some coords

/-- Embeds the numpy membership test `(lat, lon) in coords` performed by
locations_from_coords on an (n, 2) array: numpy ndarray.__contains__ is
`(arr == x).any()`, the elementwise comparison of the broadcast against
the final axis, so it is true iff some row has first component lat OR
some row has second component lon; it is NOT an exact row-membership
test. -/
def np_contains (coords : List (ℤ × ℤ)) (lat lon : ℤ) : Bool :=
  coords.any (fun c => c.1 == lat || c.2 == lon)

/-- Embeds locations_from_coords: keep the locations whose coordinates
pass the numpy membership test against the coordinate cluster. -/
def locations_from_coords (coords : List (ℤ × ℤ)) (locations : Cluster) :
    Cluster :=
  locations.filter (fun kv => np_contains coords kv.2.lat kv.2.lon)

/-- Embeds GrowGeoCluster.seed: run the density clusterer (external
sklearn DBSCAN, a parameter) over the seed coordinates and pull back
each coordinate cluster to a location cluster. -/
def seed (dbscan : List (ℤ × ℤ) → List (List (ℤ × ℤ)))
    (locations : Cluster) : Option (List Cluster) :=
  match coords_from_locations locations with
  | none => none
  | some coords =>
    some ((dbscan coords).map (fun cc => locations_from_coords cc locations))

/-- All place names across a cluster list, with multiplicity. -/
def allKeys (cs : List Cluster) : List String :=
  (cs.map (fun c => c.map Prod.fst)).flatten

/-- The data-model invariant: clusters are mutually exclusive over place
names (each name appears in at most one cluster, at most once). -/
def ClustersWF (cs : List Cluster) : Prop := (allKeys cs).Nodup

instance : DecidablePred ClustersWF := fun cs =>
  inferInstanceAs (Decidable (allKeys cs).Nodup)

/-- Number of nonempty clusters. -/
def countNE (cs : List Cluster) : ℕ :=
  (cs.filter (fun c => !c.isEmpty)).length

/-- The lengths/gain cache of a pass state is coherent with its
clusters. -/
def Coh (st : PassState) : Prop :=
  st.cluster_lens = lensOf st.clusters ∧
  st.gain = measure_gain (lensOf st.clusters)

/-- DBSCAN behaviour on two coordinate points thousands of km apart with
min_samples 1: each point is a core point of its own cluster. -/
def wDbscanC3 (coords : List (ℤ × ℤ)) : List (List (ℤ × ℤ)) :=
  coords.map (fun c => [c])

/-- Seed location A at (0, 0). -/
def wLocA : Geocoding := { components := [], address := "A", lat := 0, lon := 0 }

/-- Seed location B at (80, 0): same longitude as A, about 8900 km
away. -/
def wLocB : Geocoding := { components := [], address := "B", lat := 80, lon := 0 }

/-- Two places whose seed coordinates share a longitude value. -/
def wSeedLocsC3 : Cluster := [("A", wLocA), ("B", wLocB)]

/-- Gain as a natural number: the sum of squared cluster sizes. -/
def gainN (cs : List Cluster) : ℕ := (cs.map (fun c => c.length ^ 2)).sum

/-- The candidate mapping of a re-run on converged output: each place
with its resolved location as its only candidate. -/
def currentCands (s : List Cluster) : List (String × List Geocoding) :=
  s.flatten.map (fun p => (p.1, [p.2]))

/-- A flat integer stand-in for the external great-circle distance, used
only to instantiate witnesses; it is symmetric like great_circle. -/
def wDistFlat (p q : ℤ × ℤ) : ℤ := |p.1 - q.1| * 111 + |p.2 - q.2| * 111

/-- Grower parameters for witnesses: the default 150 km radius and the
flat distance stand-in. -/
def wParams : GeoParams := ⟨150, wDistFlat⟩

/-- Identity shuffles: a legitimate instance of the per-pass random
permutation. -/
def wShufsId (_ : ℕ) (l : List Cluster) : List Cluster := l

/-- Witness geocodings for the try-move theorem. -/
def wGA : Geocoding := { components := [], address := "a0", lat := 50, lon := 50 }

def wGB : Geocoding := { components := [], address := "b", lat := 0, lon := 0 }

def wGC : Geocoding := { components := [], address := "c", lat := 0, lon := 1 }

/-- Alternative candidate for place a, adjacent to the b/c cluster. -/
def wGA2 : Geocoding := { components := [], address := "a1", lat := 0, lon := 0 }

/-- Witness pass state: place a alone, places b and c clustered. -/
def wStC1 : PassState := initPass [[("a", wGA)], [("b", wGB), ("c", wGC)]]

/-! ## Theorems -/

theorem insertSorted_perm (r : α → α → Bool) (x : α) (l : List α) :
    (insertSorted r x l).Perm (x :: l) := by
  induction l with
  | nil => exact List.Perm.refl _
  | cons y ys ih =>
    by_cases h : r x y = true
    · simp [insertSorted, h]
    · simp only [insertSorted, h, Bool.false_eq_true, if_false]
      exact ((ih.cons y).trans (List.Perm.swap x y ys))

theorem sortStable_perm (r : α → α → Bool) (l : List α) :
    (sortStable r l).Perm l := by
  induction l with
  | nil => exact List.Perm.refl _
  | cons x xs ih =>
    exact (insertSorted_perm r x (sortStable r xs)).trans (ih.cons x)

theorem mem_sortStable {r : α → α → Bool} {x : α} {l : List α} :
    x ∈ sortStable r l ↔ x ∈ l :=
  (sortStable_perm r l).mem_iff

theorem insertSorted_pairwise {P : α → Prop} {r : α → α → Bool}
    (htot : ∀ a b, P a → P b → r a b = true ∨ r b a = true)
    (htrans : ∀ a b c, P a → P b → P c →
      r a b = true → r b c = true → r a c = true)
    {x : α} {l : List α} (hx : P x) (hmem : ∀ a ∈ l, P a)
    (hl : l.Pairwise (fun a b => r a b = true)) :
    (insertSorted r x l).Pairwise (fun a b => r a b = true) := by
  induction l with
  | nil => simp [insertSorted]
  | cons y ys ih =>
    rcases List.pairwise_cons.mp hl with ⟨hy, hys⟩
    have hyP : P y := hmem y (List.mem_cons_self y ys)
    have hysP : ∀ a ∈ ys, P a := fun a ha => hmem a (List.mem_cons_of_mem y ha)
    by_cases h : r x y = true
    · simp only [insertSorted, h, if_true]
      refine List.pairwise_cons.mpr ⟨?_, hl⟩
      intro b hb
      rcases List.mem_cons.mp hb with hb' | hb'
      · subst hb'
        exact h
      · exact htrans _ _ _ hx hyP (hysP _ hb') h (hy _ hb')
    · simp only [insertSorted, h, Bool.false_eq_true, if_false]
      refine List.pairwise_cons.mpr ⟨?_, ih hysP hys⟩
      intro b hb
      rcases List.mem_cons.mp ((insertSorted_perm r x ys).mem_iff.mp hb)
        with hb' | hb'
      · subst hb'
        rcases htot b y hx hyP with h' | h'
        · exact absurd h' h
        · exact h'
      · exact hy _ hb'

theorem sortStable_pairwise {P : α → Prop} {r : α → α → Bool}
    (htot : ∀ a b, P a → P b → r a b = true ∨ r b a = true)
    (htrans : ∀ a b c, P a → P b → P c →
      r a b = true → r b c = true → r a c = true)
    {l : List α} (hmem : ∀ a ∈ l, P a) :
    (sortStable r l).Pairwise (fun a b => r a b = true) := by
  induction l with
  | nil => simp [sortStable]
  | cons x xs ih =>
    refine insertSorted_pairwise htot htrans
      (hmem x (List.mem_cons_self x xs)) ?_
      (ih fun a ha => hmem a (List.mem_cons_of_mem x ha))
    intro a ha
    exact hmem a (List.mem_cons_of_mem x (mem_sortStable.mp ha))

theorem lookup_mem [BEq α] [LawfulBEq α] {l : List (α × β)} {k : α} {v : β}
    (h : l.lookup k = some v) : (k, v) ∈ l := by
  induction l with
  | nil => simp [List.lookup] at h
  | cons p ps ih =>
    obtain ⟨k', v'⟩ := p
    cases hk : k == k' with
    | true =>
      simp only [List.lookup, hk] at h
      have hkk : k = k' := eq_of_beq hk
      simp only [Option.some.injEq] at h
      simp [hkk, h]
    | false =>
      simp only [List.lookup, hk] at h
      exact List.mem_cons_of_mem _ (ih h)

theorem Frac.le_total' (a b : Frac) : Frac.le a b = true ∨ Frac.le b a = true := by
  unfold Frac.le
  rcases Int.le_total (a.num * b.den) (b.num * a.den) with h | h
  · left; simpa using h
  · right; simpa using h

theorem Frac.le_trans' {a b c : Frac} (ha : 0 < a.den) (hb : 0 < b.den)
    (hc : 0 < c.den) (h1 : Frac.le a b = true) (h2 : Frac.le b c = true) :
    Frac.le a c = true := by
  unfold Frac.le at h1 h2 ⊢
  simp only [decide_eq_true_eq] at h1 h2 ⊢
  nlinarith [mul_le_mul_of_nonneg_right h1 hc.le,
    mul_le_mul_of_nonneg_right h2 ha.le]

theorem statusCandidates_eq_filter (locs : List PyDict) (status : String) :
    statusCandidates locs status = locs.filter (fun d => statusHit d status) := by
  unfold statusCandidates
  rw [List.filter_filter]
  apply List.filter_congr
  intro d _
  unfold statusHit
  cases h : (getMapRelevance d).lookup status <;> simp [h]

theorem statusRanked_nil_iff (locs : List PyDict) (status : String) :
    statusRanked locs status = [] ↔ ∀ d ∈ locs, statusHit d status = false := by
  constructor
  · intro h d hd
    by_contra hne
    have hmem : d ∈ statusCandidates locs status := by
      rw [statusCandidates_eq_filter]
      exact List.mem_filter.mpr ⟨hd, by simpa using hne⟩
    have := (sortStable_perm (statusCompare status)
      (statusCandidates locs status)).mem_iff.mpr hmem
    rw [statusRanked] at h
    rw [h] at this
    exact absurd this (List.not_mem_nil d)
  · intro h
    have : statusCandidates locs status = [] := by
      rw [statusCandidates_eq_filter]
      apply List.filter_eq_nil_iff.mpr
      intro d hd
      simp [h d hd]
    rw [statusRanked, this]
    rfl

theorem mem_statusRanked {locs : List PyDict} {status : String} {d : PyDict}
    (h : d ∈ statusRanked locs status) :
    d ∈ locs ∧ statusHit d status = true := by
  have := (sortStable_perm (statusCompare status)
    (statusCandidates locs status)).mem_iff.mp h
  rw [statusCandidates_eq_filter] at this
  exact ⟨(List.mem_filter.mp this).1, (List.mem_filter.mp this).2⟩

theorem statusRanked_sorted {locs : List PyDict} {status : String}
    (hpos : ∀ d ∈ locs, probsWF d) :
    (statusRanked locs status).Pairwise
      (fun a b => statusCompare status a b = true) := by
  apply @sortStable_pairwise PyDict probsWF _ _ _ _ _
  · intro a b _ _
    exact Frac.le_total' _ _
  · intro a b c hPa hPb hPc h1 h2
    unfold statusCompare at h1 h2 ⊢
    have den_pos : ∀ d : PyDict, probsWF d →
        0 < (((getMapRelevance d).lookup status).getD ⟨0, 1⟩).den := by
      intro d hd
      cases hl : (getMapRelevance d).lookup status with
      | none => simp [Option.getD]
      | some v =>
        have := hd _ (lookup_mem hl)
        simpa [Option.getD] using this
    exact Frac.le_trans' (den_pos c hPc) (den_pos b hPb) (den_pos a hPa) h2 h1
  · intro a ha
    exact hpos a ((List.mem_filter.mp
      (by rw [← statusCandidates_eq_filter]; exact ha)).1)

/-- C5: StoryBuilder._get_core returns a location only from among those
whose map_relevance core or relevant probability strictly exceeds 0.5;
ranking the qualified locations by core probability descending (core
pass) and then by relevant probability descending (relevant pass), it
returns the first, restricted to the fixed key set keys_to_keep; when no
location clears the cutoff for either category it returns the empty
mapping. -/
theorem get_core_spec_c5 (locations : List (String × PyDict))
    (hpos : ∀ d ∈ locations.map Prod.snd, probsWF d) :
    (rankedLocs (locations.map Prod.snd) = [] ↔
      ∀ d ∈ locations.map Prod.snd, coreQualified d = false) ∧
    ((∀ d ∈ locations.map Prod.snd, coreQualified d = false) →
      get_core locations = []) ∧
    (∀ d rest, rankedLocs (locations.map Prod.snd) = d :: rest →
      d ∈ locations.map Prod.snd ∧ coreQualified d = true ∧
      get_core locations = d.filter (fun kv => keys_to_keep.contains kv.1)) ∧
    (statusRanked (locations.map Prod.snd) "core").Pairwise
      (fun a b => statusCompare "core" a b = true) ∧
    (statusRanked (locations.map Prod.snd) "relevant").Pairwise
      (fun a b => statusCompare "relevant" a b = true) := by
  set vals := locations.map Prod.snd with hvals
  have hnil : rankedLocs vals = [] ↔ ∀ d ∈ vals, coreQualified d = false := by
    unfold rankedLocs
    rw [List.append_eq_nil]
    rw [statusRanked_nil_iff, statusRanked_nil_iff]
    constructor
    · intro ⟨h1, h2⟩ d hd
      unfold coreQualified
      rw [h1 d hd, h2 d hd]
      rfl
    · intro h
      constructor <;> intro d hd <;>
        [skip; skip] <;>
        · have := h d hd
          unfold coreQualified at this
          rcases Bool.or_eq_false_iff.mp this with ⟨ha, hb⟩
          first
            | exact ha
            | exact hb
  refine ⟨hnil, ?_, ?_, statusRanked_sorted hpos, statusRanked_sorted hpos⟩
  · intro h
    unfold get_core
    rw [← hvals, hnil.mpr h]
  · intro d rest hr
    have hd : d ∈ rankedLocs vals := by
      rw [hr]
      exact List.mem_cons_self d rest
    have hmem : d ∈ vals ∧ coreQualified d = true := by
      unfold rankedLocs at hd
      rcases List.mem_append.mp hd with h | h
      · have := mem_statusRanked h
        exact ⟨this.1, by unfold coreQualified; rw [this.2]; rfl⟩
      · have := mem_statusRanked h
        exact ⟨this.1, by unfold coreQualified; rw [this.2]; simp⟩
    refine ⟨hmem.1, hmem.2, ?_⟩
    unfold get_core
    rw [← hvals, hr]

/-- Witness for get_core_spec_c5 at a concrete qualified location. -/
theorem get_core_spec_c5_witness :
    coreQualified wLocC5 = true ∧
    get_core [("Geneva", wLocC5)] =
      wLocC5.filter (fun kv => keys_to_keep.contains kv.1) := by
  have h := (get_core_spec_c5 [("Geneva", wLocC5)] (by decide)).2.2.1
    wLocC5 [wLocC5] (by decide)
  exact ⟨h.2.1, h.2.2⟩

theorem mergeScores_getElem (ls : List (String × PyDict))
    (ss : List (List (String × Frac))) (i : ℕ) :
    (mergeScores ls ss)[i]? = (ls[i]?).map (fun nd =>
      match ss[i]? with
      | some s => (nd.1, pyDictUpdate nd.2 "map_relevance" (.table s))
      | none => nd) := by
  induction ls generalizing ss i with
  | nil => simp [mergeScores]
  | cons p ps ih =>
    obtain ⟨n, d⟩ := p
    cases ss with
    | nil =>
      cases i <;> simp [mergeScores]
    | cons s sstail =>
      cases i with
      | zero => simp [mergeScores]
      | succ j => simpa [mergeScores] using ih sstail j

/-- C8 (amended): Geolocate.classify raises exactly on a 4xx or 5xx
response, with the raised error carrying the response body and no score
merged into any location; on any other status (2xx included) the
returned score mappings are merged into the locations positionally, in
order, with locations beyond the score list left unchanged. -/
theorem classify_spec_c8 (locations : List (String × PyDict))
    (r : ScoreResponse) :
    ((∃ e, classify locations r = .error e) ↔
      400 ≤ r.status ∧ r.status < 600) ∧
    (∀ e, classify locations r = .error e → e = r.text) ∧
    (¬(400 ≤ r.status ∧ r.status < 600) →
      classify locations r = .ok (mergeScores locations r.json) ∧
      ∀ i : ℕ, (mergeScores locations r.json)[i]? =
        (locations[i]?).map (fun nd : String × PyDict =>
          match r.json[i]? with
          | some s => (nd.1, pyDictUpdate nd.2 "map_relevance" (.table s))
          | none => nd)) := by
  by_cases h : 400 ≤ r.status ∧ r.status < 600
  · have hb : raise_for_status r = true := by
      unfold raise_for_status
      simp only [Bool.and_eq_true, decide_eq_true_eq]
      exact h
    have hcl : classify locations r = .error r.text := by
      unfold classify
      rw [if_pos hb]
    refine ⟨⟨fun _ => h, fun _ => ⟨r.text, hcl⟩⟩, ?_, ?_⟩
    · intro e he
      rw [hcl] at he
      exact ((Except.error.injEq _ _).mp he).symm
    · intro hc
      exact absurd h hc
  · have hb : ¬(raise_for_status r = true) := by
      unfold raise_for_status
      simp only [Bool.and_eq_true, decide_eq_true_eq]
      exact h
    have hcl : classify locations r = .ok (mergeScores locations r.json) := by
      unfold classify
      rw [if_neg hb]
    refine ⟨⟨fun ⟨e, he⟩ => ?_, fun hc => absurd hc h⟩, ?_, ?_⟩
    · rw [hcl] at he
      exact absurd he (by simp)
    · intro e he
      rw [hcl] at he
      exact absurd he (by simp)
    · intro _
      exact ⟨hcl, fun i => mergeScores_getElem locations r.json i⟩

/-- The original C8 claim is false: a 300 response is not 2xx, yet
classify does not raise; requests raise_for_status only raises for 4xx
and 5xx, so the scores are merged as on success. -/
theorem classify_non2xx_c8_counterexample :
    ¬(200 ≤ 300 ∧ 300 < 300) ∧
    classify [("p", [])] ⟨300, "redirect", [[("core", ⟨9, 10⟩)]]⟩ =
      .ok [("p", [("map_relevance", .table [("core", ⟨9, 10⟩)])])] := by
  exact ⟨by decide, rfl⟩

/-- Witness for classify_spec_c8 at a concrete error response. -/
theorem classify_spec_c8_witness :
    classify [("p", [])] ⟨502, "bad gateway", []⟩ = .error "bad gateway" := by
  have h := (classify_spec_c8 [("p", [])] ⟨502, "bad gateway", []⟩).1.2
    ⟨by decide, by decide⟩
  obtain ⟨e, he⟩ := h
  have := (classify_spec_c8 [("p", [])] ⟨502, "bad gateway", []⟩).2.1 e he
  rw [he, this]

theorem pairwise_imp_of_mem {R S : α → α → Prop} {l : List α}
    (h : ∀ a b, a ∈ l → b ∈ l → R a b → S a b) (hp : l.Pairwise R) :
    l.Pairwise S := by
  induction l with
  | nil => exact List.Pairwise.nil
  | cons x xs ih =>
    rcases List.pairwise_cons.mp hp with ⟨hx, hxs⟩
    refine List.pairwise_cons.mpr ⟨?_, ?_⟩
    · intro b hb
      exact h x b (List.mem_cons_self x xs) (List.mem_cons_of_mem x hb)
        (hx b hb)
    · exact ih (fun a b ha hb => h a b (List.mem_cons_of_mem x ha)
        (List.mem_cons_of_mem x hb)) hxs

theorem assoc_nodup_eq {l : List (String × β)} {n : String} {a b : β}
    (hnd : (l.map Prod.fst).Nodup) (ha : (n, a) ∈ l) (hb : (n, b) ∈ l) :
    a = b := by
  induction l with
  | nil => exact absurd ha (List.not_mem_nil _)
  | cons p ps ih =>
    rw [List.map_cons, List.nodup_cons] at hnd
    rcases List.mem_cons.mp ha with ha' | ha' <;>
      rcases List.mem_cons.mp hb with hb' | hb'
    · have h := ha'.trans hb'.symm
      exact ((Prod.mk.injEq _ _ _ _).mp h).2
    · exfalso
      apply hnd.1
      rw [← ha']
      exact List.mem_map.mpr ⟨(n, b), hb', rfl⟩
    · exfalso
      apply hnd.1
      rw [← hb']
      exact List.mem_map.mpr ⟨(n, a), ha', rfl⟩
    · exact ih hnd.2 ha' hb'

theorem dotWeight_self_nonneg (idf : String → ℤ) (t : List String) :
    0 ≤ dotWeight idf t t := by
  apply List.sum_nonneg
  intro x hx
  obtain ⟨w, _, hw⟩ := List.mem_map.mp hx
  rw [← hw]
  exact mul_self_nonneg _

theorem dotWeight_disjoint (idf : String → ℤ) {t1 t2 : List String}
    (hdisj : ∀ w, w ∈ t1 → w ∉ t2) : dotWeight idf t1 t2 = 0 := by
  apply List.sum_eq_zero
  intro x hx
  obtain ⟨w, _, hw⟩ := List.mem_map.mp hx
  rw [← hw]
  unfold termWeight
  by_cases h1 : w ∈ t1
  · have : t2.count w = 0 := List.count_eq_zero.mpr (hdisj w h1)
    rw [this]
    push_cast
    ring
  · have : t1.count w = 0 := List.count_eq_zero.mpr h1
    rw [this]
    push_cast
    ring

theorem dotWeight_self_pos (idf : String → ℤ) {t : List String}
    (hidf : ∀ w, 1 ≤ idf w) (hne : t ≠ []) : 0 < dotWeight idf t t := by
  obtain ⟨w, hw⟩ := List.exists_mem_of_ne_nil t hne
  have hvocab : w ∈ vocabOf t t := by
    unfold vocabOf
    rw [List.mem_dedup]
    exact List.mem_append.mpr (Or.inl hw)
  have hterm : 1 ≤ termWeight idf t w := by
    unfold termWeight
    have hc0 : 0 < t.count w := List.count_pos_iff.mpr hw
    have hc : 1 ≤ (t.count w : ℤ) := by exact_mod_cast hc0
    calc (1 : ℤ) = 1 * 1 := by ring
    _ ≤ (t.count w : ℤ) * idf w := by
        exact mul_le_mul hc (hidf w) (by norm_num) (by linarith)
  have hsq : 1 ≤ termWeight idf t w * termWeight idf t w := by nlinarith
  have hmem : termWeight idf t w * termWeight idf t w ∈
      (vocabOf t t).map (fun v => termWeight idf t v * termWeight idf t v) :=
    List.mem_map.mpr ⟨w, hvocab, rfl⟩
  have := List.single_le_sum
    (fun x hx => by
      obtain ⟨v, _, hv⟩ := List.mem_map.mp hx
      rw [← hv]
      exact mul_self_nonneg _)
    _ hmem
  unfold dotWeight
  linarith

theorem cosineSim_den_pos (idf : String → ℤ) (s1 s2 : String) :
    0 < (cosineSim idf s1 s2).den := by
  unfold cosineSim
  by_cases h : dotWeight idf (tokenize s1) (tokenize s1) = 0 ∨
      dotWeight idf (tokenize s2) (tokenize s2) = 0
  · rw [if_pos h]
    norm_num
  · rw [if_neg h]
    push_neg at h
    have h1 := lt_of_le_of_ne (dotWeight_self_nonneg idf (tokenize s1)) (Ne.symm h.1)
    have h2 := lt_of_le_of_ne (dotWeight_self_nonneg idf (tokenize s2)) (Ne.symm h.2)
    exact mul_pos h1 h2

theorem cosineSim_num_zero_of_disjoint (idf : String → ℤ) {s1 s2 : String}
    (hdisj : ∀ w, w ∈ tokenize s1 → w ∉ tokenize s2) :
    (cosineSim idf s1 s2).num = 0 := by
  unfold cosineSim
  by_cases h : dotWeight idf (tokenize s1) (tokenize s1) = 0 ∨
      dotWeight idf (tokenize s2) (tokenize s2) = 0
  · rw [if_pos h]
  · rw [if_neg h]
    have := dotWeight_disjoint idf hdisj
    simp [this]

theorem cosineSim_self_unit (idf : String → ℤ) {s : String}
    (hidf : ∀ w, 1 ≤ idf w) (hne : tokenize s ≠ []) :
    (cosineSim idf s s).num = (cosineSim idf s s).den ∧
    0 < (cosineSim idf s s).den := by
  have hpos := dotWeight_self_pos idf hidf hne
  unfold cosineSim
  rw [if_neg (by push_neg; exact ⟨hpos.ne', hpos.ne'⟩)]
  constructor
  · ring
  · exact mul_pos hpos hpos

theorem backquery_match_mem (cos : String → String → Frac) (θ : Frac)
    (gs : List Geocoding) (text : String) (g : Geocoding) :
    g ∈ backquery_match cos θ gs text ↔
      g ∈ gs ∧ Frac.lt θ (cos (compile_address g.components) text) = true := by
  unfold backquery_match
  constructor
  · intro hm
    obtain ⟨p, hp, hpg⟩ := List.mem_map.mp hm
    have hp' := mem_sortStable.mp hp
    obtain ⟨b, hb, hbp⟩ := List.mem_filterMap.mp hp'
    by_cases hc : Frac.lt θ (cos (compile_address b.components) text) = true
    · rw [if_pos hc] at hbp
      obtain rfl := Option.some.injEq _ _ ▸ hbp
      rw [← hpg]
      exact ⟨hb, hc⟩
    · rw [if_neg hc] at hbp
      exact absurd hbp (by simp)
  · rintro ⟨hg, hc⟩
    apply List.mem_map.mpr
    refine ⟨(g, cos (compile_address g.components) text), ?_, rfl⟩
    apply mem_sortStable.mpr
    apply List.mem_filterMap.mpr
    exact ⟨g, hg, by rw [if_pos hc]⟩

theorem backquery_match_sorted (cos : String → String → Frac) (θ : Frac)
    (gs : List Geocoding) (text : String)
    (hden : ∀ g ∈ gs, 0 < (cos (compile_address g.components) text).den) :
    (backquery_match cos θ gs text).Pairwise (fun g1 g2 =>
      Frac.le (cos (compile_address g2.components) text)
        (cos (compile_address g1.components) text) = true) := by
  unfold backquery_match
  rw [List.pairwise_map]
  have hscore : ∀ p ∈ gs.filterMap (fun g =>
        let distance := cos (compile_address g.components) text
        if Frac.lt θ distance then some (g, distance) else none),
      p.2 = cos (compile_address p.1.components) text ∧ 0 < p.2.den := by
    intro p hp
    obtain ⟨b, hbmem, hbp⟩ := List.mem_filterMap.mp hp
    by_cases hc : Frac.lt θ (cos (compile_address b.components) text) = true
    · rw [if_pos hc] at hbp
      obtain rfl := Option.some.injEq _ _ ▸ hbp
      exact ⟨rfl, hden b hbmem⟩
    · rw [if_neg hc] at hbp
      exact absurd hbp (by simp)
  apply @pairwise_imp_of_mem (Geocoding × Frac)
    (fun a b => Frac.le b.2 a.2 = true) _ _ _ _
  · intro a b ha hb hr
    rw [(hscore a (mem_sortStable.mp ha)).1,
      (hscore b (mem_sortStable.mp hb)).1] at hr
    exact hr
  · apply @sortStable_pairwise (Geocoding × Frac)
      (fun p => 0 < p.2.den) _ _ _ _ _
    · intro a b _ _
      unfold Frac.le
      rcases Int.le_total (b.2.num * a.2.den) (a.2.num * b.2.den) with h | h
      · left; simpa using h
      · right; simpa using h
    · intro a b c ha hb hc h1 h2
      exact Frac.le_trans' hc hb ha h2 h1
    · intro p hp
      exact (hscore p hp).2

/-- C4 (amended): for every place and article text, BackQuery returns
that place's candidates sorted by descending similarity between the
compiled address and the text, discards every candidate whose similarity
is at or below the threshold, and removes a place left with no surviving
candidate from the returned mapping; a candidate whose address shares no
term with the text is always discarded at a positive threshold, and a
candidate whose address is identical to the text and carries at least
one term is always retained at a threshold below 1 (the amendment: an
identical but term-free address, such as the empty string, scores zero
and is discarded). -/
theorem backquery_spec_c4 (idf : String → ℤ) (hidf : ∀ w, 1 ≤ idf w)
    (locations : List (String × List Geocoding)) (text : String) (θ : Frac)
    (hnd : (locations.map Prod.fst).Nodup)
    (hθpos : 0 < θ.num ∧ 0 < θ.den) (hθ1 : θ.num < θ.den) :
    (∀ n gs, (n, gs) ∈ backquery_call (cosineSim idf) θ true locations text →
      gs ≠ []) ∧
    (∀ n gs, (n, gs) ∈ locations →
      (backquery_match (cosineSim idf) θ gs text ≠ [] →
        (n, (backquery_match (cosineSim idf) θ gs text).map scrub_components) ∈
          backquery_call (cosineSim idf) θ true locations text) ∧
      (backquery_match (cosineSim idf) θ gs text = [] →
        ∀ gs', (n, gs') ∉ backquery_call (cosineSim idf) θ true locations text) ∧
      (∀ g, g ∈ backquery_match (cosineSim idf) θ gs text ↔ g ∈ gs ∧
        Frac.lt θ (cosineSim idf (compile_address g.components) text) = true) ∧
      (backquery_match (cosineSim idf) θ gs text).Pairwise (fun g1 g2 =>
        Frac.le (cosineSim idf (compile_address g2.components) text)
          (cosineSim idf (compile_address g1.components) text) = true) ∧
      (∀ g, g ∈ gs →
        (∀ w, w ∈ tokenize (compile_address g.components) →
          w ∉ tokenize text) →
        g ∉ backquery_match (cosineSim idf) θ gs text) ∧
      (∀ g, g ∈ gs → compile_address g.components = text →
        tokenize text ≠ [] →
        g ∈ backquery_match (cosineSim idf) θ gs text)) := by
  constructor
  · intro n gs hmem
    unfold backquery_call at hmem
    rw [if_pos rfl] at hmem
    obtain ⟨nl, hnl, hnlq⟩ := List.mem_map.mp hmem
    have hne := (List.mem_filter.mp hnl).2
    obtain ⟨-, h2⟩ := Prod.mk.injEq _ _ _ _ ▸ hnlq
    intro hgs
    rw [← h2] at hgs
    rw [List.map_eq_nil_iff] at hgs
    rw [hgs] at hne
    simp at hne
  · intro n gs hmem
    refine ⟨?_, ?_, backquery_match_mem _ _ _ _,
      backquery_match_sorted _ _ _ _
        (fun g _ => cosineSim_den_pos idf _ _), ?_, ?_⟩
    · intro hne
      unfold backquery_call
      rw [if_pos rfl]
      apply List.mem_map.mpr
      refine ⟨(n, backquery_match (cosineSim idf) θ gs text), ?_, rfl⟩
      apply List.mem_filter.mpr
      refine ⟨List.mem_map.mpr ⟨(n, gs), hmem, rfl⟩, by simpa using hne⟩
    · intro hnil gs' hmem'
      unfold backquery_call at hmem'
      rw [if_pos rfl] at hmem'
      obtain ⟨nl, hnl, hnlq⟩ := List.mem_map.mp hmem'
      have hne := (List.mem_filter.mp hnl).2
      obtain ⟨nl0, hnl0, hnl0q⟩ :=
        List.mem_map.mp (List.mem_filter.mp hnl).1
      obtain ⟨h1, h2⟩ := Prod.mk.injEq _ _ _ _ ▸ hnlq
      obtain ⟨h3, h4⟩ := Prod.mk.injEq _ _ _ _ ▸ hnl0q
      have hname : nl0.1 = n := by rw [h3, h1]
      have : nl0.2 = gs := by
        apply assoc_nodup_eq hnd ?_ hmem
        rw [← hname]
        exact hnl0
      rw [this] at h4
      have hnl2 : nl.2 = [] := by rw [← h4, hnil]
      rw [hnl2] at hne
      simp at hne
    · intro g hg hdisj hgmem
      have hc := ((backquery_match_mem _ _ _ _ g).mp hgmem).2
      have hnum := cosineSim_num_zero_of_disjoint idf hdisj
      have hden := cosineSim_den_pos idf (compile_address g.components) text
      unfold Frac.lt at hc
      rw [hnum] at hc
      simp only [decide_eq_true_eq, zero_mul] at hc
      nlinarith [hθpos.1, hden, hc]
    · intro g hg hid hne
      apply (backquery_match_mem _ _ _ _ g).mpr
      refine ⟨hg, ?_⟩
      rw [hid]
      obtain ⟨hunit, hdpos⟩ := cosineSim_self_unit idf hidf hne
      unfold Frac.lt
      rw [hunit]
      simp only [decide_eq_true_eq]
      calc θ.num * (cosineSim idf text text).den
      _ < θ.den * (cosineSim idf text text).den := by
          exact mul_lt_mul_of_pos_right hθ1 hdpos
      _ = (cosineSim idf text text).den * θ.den := by ring

/-- The original C4 claim fails on a term-free identical address: with
the empty article text and a candidate whose compiled address is also
empty (identical to the text), the modelled TF-IDF vectors are zero, the
cosine is 0, at or below the 0.1 threshold, so the candidate is
discarded and the place dropped instead of retained. -/
theorem backquery_identical_c4_counterexample :
    compile_address wGeoEmpty.components = "" ∧
    backquery_call (cosineSim (fun _ => 1)) BACKQUERY_THRESHOLD true
      [("p", [wGeoEmpty])] "" = [] :=
  ⟨rfl, rfl⟩

/-- Witness for backquery_spec_c4 at concrete inputs: the overlapping
candidate survives, the unrelated candidate is discarded, and the place
is kept. -/
theorem backquery_spec_c4_witness :
    wGeoGood ∈ backquery_match (cosineSim (fun _ => 1)) BACKQUERY_THRESHOLD
      [wGeoGood, wGeoBad] "Geneva Switzerland lake" ∧
    wGeoBad ∉ backquery_match (cosineSim (fun _ => 1)) BACKQUERY_THRESHOLD
      [wGeoGood, wGeoBad] "Geneva Switzerland lake" := by
  have h := (backquery_spec_c4 (fun _ => 1) (fun _ => le_refl 1)
    [("Geneva", [wGeoGood, wGeoBad])] "Geneva Switzerland lake"
    BACKQUERY_THRESHOLD (by decide) ⟨by decide, by decide⟩ (by decide)).2
    "Geneva" [wGeoGood, wGeoBad] (by decide)
  constructor
  · exact (h.2.2.1 wGeoGood).mpr ⟨by decide, by decide⟩
  · exact h.2.2.2.2.1 wGeoBad (by decide) (by decide)

theorem annotateMembers_ne_noData (places : List (String × PyDict))
    (total : ℕ) (names : List String) (size : ℕ)
    (members : List (String × Geocoding)) :
    annotateMembers places total names size members ≠ .error .noData := by
  induction members with
  | nil => simp [annotateMembers]
  | cons ng rest ih =>
    unfold annotateMembers
    cases places.lookup ng.1 with
    | none => simp
    | some p =>
      simp only
      cases hrec : annotateMembers places total names size rest with
      | error e =>
        intro hcontra
        apply ih
        rw [hrec]
        obtain rfl := (Except.error.injEq _ _).mp hcontra
        rfl
      | ok r => simp

theorem annotateClusters_ne_noData (places : List (String × PyDict))
    (total : ℕ) (clusters : List (List (String × Geocoding))) :
    annotateClusters places total clusters ≠ .error .noData := by
  induction clusters with
  | nil => simp [annotateClusters]
  | cons c rest ih =>
    unfold annotateClusters
    cases hm : annotateMembers places total (c.map Prod.fst) c.length c with
    | error e =>
      intro hcontra
      apply annotateMembers_ne_noData places total (c.map Prod.fst) c.length c
      rw [hm]
      obtain rfl := (Except.error.injEq _ _).mp hcontra
      rfl
    | ok a =>
      simp only
      cases hrec : annotateClusters places total rest with
      | error e =>
        intro hcontra
        apply ih
        rw [hrec]
        obtain rfl := (Except.error.injEq _ _).mp hcontra
        rfl
      | ok r => simp

/-- C6: the embedded Geolocate.__call__ raises the no-data error exactly
when candidate filtering leaves no place with a usable candidate; when
at least one place retains a candidate, the no-data error is not raised
and the call proceeds to the clustering and annotation stages. -/
theorem geolocate_call_nodata_c6
    (clusterTool :
      List (String × List Geocoding) → List (List (String × Geocoding)))
    (cos : String → String → Frac) (θ : Frac)
    (places : List (String × PyDict))
    (candidates : List (String × List Geocoding)) (text : String) :
    (geolocate_call clusterTool cos θ places candidates text =
        .error .noData ↔
      backquery_call cos θ true candidates text = []) ∧
    (backquery_call cos θ true candidates text ≠ [] →
      geolocate_call clusterTool cos θ places candidates text =
        annotateClusters places
          (backquery_call cos θ true candidates text).length
          (clusterTool (backquery_call cos θ true candidates text))) := by
  unfold geolocate_call
  by_cases h : backquery_call cos θ true candidates text = []
  · rw [h]
    simp
  · have hne : (backquery_call cos θ true candidates text).isEmpty = false := by
      cases hc : backquery_call cos θ true candidates text with
      | nil => exact absurd hc h
      | cons a l => rfl
    simp only [hne, Bool.false_eq_true, if_false]
    exact ⟨⟨fun hc => absurd hc (annotateClusters_ne_noData _ _ _),
      fun hc => absurd hc h⟩, fun _ => trivial⟩

/-- Witness for geolocate_call_nodata_c6: with one place retaining a
candidate, the no-data error is not raised. -/
theorem geolocate_call_nodata_c6_witness :
    geolocate_call wClusterTool (cosineSim (fun _ => 1)) BACKQUERY_THRESHOLD
      wPlacesC6 wCandsC6 "Geneva Switzerland lake" ≠ .error .noData := by
  intro hcontra
  have h := (geolocate_call_nodata_c6 wClusterTool (cosineSim (fun _ => 1))
    BACKQUERY_THRESHOLD wPlacesC6 wCandsC6 "Geneva Switzerland lake").1.mp
    hcontra
  exact absurd h (by decide)

theorem deepCopyLocs_spec (locs : List (String × List ℕ)) (h : GeoHeap) :
    (∃ ext, (deepCopyLocs h locs).1.cells = h.cells ++ ext) ∧
    (∀ nr ∈ (deepCopyLocs h locs).2, ∀ a ∈ nr.2, h.cells.length ≤ a) := by
  induction locs generalizing h with
  | nil => exact ⟨⟨[], by simp [deepCopyLocs]⟩, by simp [deepCopyLocs]⟩
  | cons p rest ih =>
    obtain ⟨n, refs⟩ := p
    obtain ⟨⟨ext2, hext2⟩, hbound⟩ :=
      ih ⟨h.cells ++ refs.map (heapGetD h)⟩
    constructor
    · refine ⟨refs.map (heapGetD h) ++ ext2, ?_⟩
      simp only [deepCopyLocs, heapAllocCopies]
      rw [hext2]
      simp
    · intro nr hnr a ha
      simp only [deepCopyLocs, heapAllocCopies] at hnr
      rcases List.mem_cons.mp hnr with hnr' | hnr'
      · subst hnr'
        simp only at ha
        have := List.mem_range'.mp ha
        omega
      · have := hbound nr hnr' a ha
        simp only [List.length_append] at this
        omega

theorem scrubHeap_frame (refs : List ℕ) (h : GeoHeap) (bound : ℕ)
    (hrefs : ∀ r ∈ refs, bound ≤ r) (a : ℕ) (ha : a < bound) :
    (scrubHeap h refs).cells[a]? = h.cells[a]? := by
  induction refs generalizing h with
  | nil => rfl
  | cons r rest ih =>
    have hr := hrefs r (List.mem_cons_self r rest)
    rw [scrubHeap]
    rw [ih _ (fun x hx => hrefs x (List.mem_cons_of_mem r hx))]
    unfold heapSet
    simp only
    rw [List.getElem?_set_ne]
    omega

theorem backquery_match_refs_sub {cos : String → String → Frac} {θ : Frac}
    {h : GeoHeap} {refs : List ℕ} {text : String} {b : ℕ}
    (hb : b ∈ backquery_match_refs cos θ h refs text) : b ∈ refs := by
  unfold backquery_match_refs at hb
  obtain ⟨p, hp, hpb⟩ := List.mem_map.mp hb
  obtain ⟨r, hr, hrp⟩ := List.mem_filterMap.mp (mem_sortStable.mp hp)
  by_cases hc : Frac.lt θ
      (cos (compile_address (heapGetD h r).components) text) = true
  · rw [if_pos hc] at hrp
    obtain rfl := Option.some.injEq _ _ ▸ hrp
    rw [← hpb]
    exact hr
  · rw [if_neg hc] at hrp
    exact absurd hrp (by simp)

/-- C9: BackQuery.__call__ has no effect on the caller's candidate
dicts: the json round trip copies every referenced cell before scoring,
and the in-place scrubbing touches only the fresh copies, so every cell
allocated before the call is unchanged afterwards; moreover the
similarity vectorizer is rebuilt on every call from the fixed corpus
plus the current article text, whatever it held before. -/
theorem backquery_heap_frame_c9 (corpus : List String)
    (cos : String → String → Frac) (θ : Frac) (st : BQState) (h : GeoHeap)
    (locations : List (String × List ℕ)) (text : String) :
    (∀ a : ℕ, a < h.cells.length →
      ((backquery_call_heap corpus cos θ st h locations text).2.1).cells[a]? =
        h.cells[a]?) ∧
    (backquery_call_heap corpus cos θ st h locations text).1 =
      ⟨some (corpus ++ [text])⟩ := by
  obtain ⟨⟨ext, hext⟩, hbound⟩ := deepCopyLocs_spec locations h
  constructor
  · intro a ha
    unfold backquery_call_heap
    simp only
    rw [scrubHeap_frame _ _ h.cells.length _ a ha]
    · rw [hext, List.getElem?_append]
      rw [if_pos ha]
    · intro r hr
      obtain ⟨rl, hrl, hrmem⟩ := List.mem_flatten.mp hr
      obtain ⟨nr, hnr, hnrl⟩ := List.mem_map.mp hrl
      have hkept := List.mem_filter.mp hnr
      obtain ⟨nr0, hnr0, hnr0q⟩ := List.mem_map.mp hkept.1
      rw [← hnrl] at hrmem
      rw [← hnr0q] at hrmem
      simp only at hrmem
      have := backquery_match_refs_sub hrmem
      exact hbound nr0 hnr0 r this
  · rfl

/-- C3 is violated by the code (a bug): with two places at (0,0) and
(80,0) — same longitude, about 8900 km apart, so DBSCAN with the 150 km
radius returns two singleton coordinate clusters — seeding assigns BOTH
places to BOTH initial clusters, so neither place is in exactly one
cluster.  Cause: numpy `(lat, lon) in coords` on an (n,2) array is the
elementwise any() of a broadcast comparison, true already when only a
longitude matches, not the exact row match that the docstring of
locations_from_coords promises ("It seeks an exact lat/lon match"). -/
theorem seed_overlap_c3_bug :
    seed wDbscanC3 wSeedLocsC3 =
      some [[("A", wLocA), ("B", wLocB)], [("A", wLocA), ("B", wLocB)]] ∧
    ((seed wDbscanC3 wSeedLocsC3).getD []).countP (fun c => hasKey c "A") = 2 ∧
    ¬ ClustersWF ((seed wDbscanC3 wSeedLocsC3).getD []) :=
  ⟨rfl, rfl, by decide⟩

theorem getD_set_ne' (l : List α) (i j : ℕ) (x : α) (d : α) (h : i ≠ j) :
    (l.set i x).getD j d = l.getD j d := by
  induction l generalizing i j with
  | nil => simp
  | cons a as ih =>
    cases i with
    | zero =>
      cases j with
      | zero => exact absurd rfl h
      | succ j' => simp [List.set, List.getD]
    | succ i' =>
      cases j with
      | zero => simp [List.set, List.getD]
      | succ j' =>
        simp only [List.set, List.getD_cons_succ]
        exact ih i' j' (fun hc => h (by rw [hc]))

theorem sum_set_nat (l : List ℕ) (i : ℕ) (x : ℕ) (h : i < l.length) :
    (l.set i x).sum + l.getD i 0 = l.sum + x := by
  induction l generalizing i with
  | nil => simp at h
  | cons a as ih =>
    cases i with
    | zero => simp [List.set, List.getD]; omega
    | succ i' =>
      simp only [List.set, List.sum_cons, List.getD_cons_succ]
      have := ih i' (by simpa using h)
      omega

theorem sum_set_int (l : List ℤ) (i : ℕ) (x : ℤ) (h : i < l.length) :
    (l.set i x).sum = l.sum + x - l.getD i 0 := by
  induction l generalizing i with
  | nil => simp at h
  | cons a as ih =>
    cases i with
    | zero => simp [List.set, List.getD]; ring
    | succ i' =>
      simp only [List.set, List.sum_cons, List.getD_cons_succ]
      rw [ih i' (by simpa using h)]
      ring

theorem countP_set (p : α → Bool) (l : List α) (i : ℕ) (x : α)
    (h : i < l.length) :
    (l.set i x).countP p + (if p (l.getD i x) then 1 else 0) =
      l.countP p + (if p x then 1 else 0) := by
  induction l generalizing i with
  | nil => simp at h
  | cons a as ih =>
    cases i with
    | zero =>
      simp only [List.set, List.getD_cons_zero, List.countP_cons]
      by_cases hpa : p a <;> by_cases hpx : p x <;> simp [hpa, hpx] <;> omega
    | succ i' =>
      simp only [List.set, List.getD_cons_succ, List.countP_cons]
      have hrec := ih i' (by simpa using h)
      simp only [List.getD_eq_getElem?_getD] at hrec ⊢
      by_cases hpa : p a <;> simp [hpa] <;> omega

theorem getD_le_sum (l : List ℕ) (i : ℕ) : l.getD i 0 ≤ l.sum := by
  induction l generalizing i with
  | nil => simp
  | cons a as ih =>
    cases i with
    | zero => simp [List.getD]
    | succ i' =>
      simp only [List.getD_cons_succ, List.sum_cons]
      exact le_add_of_nonneg_of_le (Nat.zero_le a) (ih i')

theorem two_getD_le_sum (l : List ℕ) (i j : ℕ) (hi : i < l.length)
    (hj : j < l.length) (hij : i ≠ j) :
    l.getD i 0 + l.getD j 0 ≤ l.sum := by
  induction l generalizing i j with
  | nil => simp at hi
  | cons a as ih =>
    cases i with
    | zero =>
      cases j with
      | zero => exact absurd rfl hij
      | succ j' =>
        simp only [List.getD_cons_zero, List.getD_cons_succ, List.sum_cons]
        exact Nat.add_le_add_left (getD_le_sum as j') a
    | succ i' =>
      cases j with
      | zero =>
        simp only [List.getD_cons_zero, List.getD_cons_succ, List.sum_cons]
        have := getD_le_sum as i'
        omega
      | succ j' =>
        simp only [List.getD_cons_succ, List.sum_cons]
        have := ih i' j' (by simpa using hi) (by simpa using hj)
          (fun hc => hij (by rw [hc]))
        omega

theorem map_set' (f : α → β) (l : List α) (i : ℕ) (x : α) :
    (l.set i x).map f = (l.map f).set i (f x) := by
  induction l generalizing i with
  | nil => simp
  | cons a as ih =>
    cases i with
    | zero => simp [List.set]
    | succ i' => simp [List.set, ih]

theorem getD_map' (f : α → β) (l : List α) (i : ℕ) (d : α)
    (h : i < l.length) : (l.map f).getD i (f d) = f (l.getD i d) := by
  induction l generalizing i with
  | nil => simp at h
  | cons a as ih =>
    cases i with
    | zero => simp [List.getD]
    | succ i' =>
      simp only [List.map_cons, List.getD_cons_succ]
      exact ih i' (by simpa using h)

theorem popKey_keys_count (c : Cluster) (n a : String) :
    ((popKey c n).map Prod.fst).count a =
      if a = n then 0 else (c.map Prod.fst).count a := by
  induction c with
  | nil => simp [popKey]
  | cons kv rest ih =>
    by_cases hk : kv.1 = n
    · simp only [popKey, List.filter_cons, hk]
      simp only [beq_self_eq_true, Bool.not_true, Bool.false_eq_true,
        if_false]
      rw [popKey] at ih
      rw [ih]
      by_cases ha : a = n
      · simp [ha]
      · simp only [ha, if_false]
        rw [List.map_cons, List.count_cons]
        have : ¬(kv.1 == a) = true := by
          simp only [beq_iff_eq]
          rw [hk]
          exact fun hc => ha hc.symm
        simp [hk, this, ha]
        intro hc
        exact absurd hc.symm ha
    · simp only [popKey, List.filter_cons]
      have hne : (!(kv.1 == n)) = true := by simpa using hk
      rw [hne]
      simp only [if_true, List.map_cons, List.count_cons]
      rw [popKey] at ih
      rw [ih]
      by_cases ha : a = n
      · simp only [ha, if_true]
        have : ¬(kv.1 == n) = true := by simpa using hk
        subst ha
        simp [this]
      · simp [ha]

theorem popKey_length_add (c : Cluster) (n : String) :
    (popKey c n).length + (c.map Prod.fst).count n = c.length := by
  induction c with
  | nil => simp [popKey]
  | cons kv rest ih =>
    obtain ⟨k, v⟩ := kv
    rw [popKey] at ih ⊢
    rw [List.filter_cons, List.map_cons, List.count_cons]
    by_cases hk : k = n
    · subst hk
      simp only [beq_self_eq_true, Bool.not_true, Bool.false_eq_true,
        if_false, if_true, List.length_cons]
      omega
    · have hne : (((k, v).1 : String) == n) = false := by simpa using hk
      have hne2 : (!((k, v).1 == n)) = true := by simpa using hk
      rw [hne2, hne]
      simp only [if_true, Bool.false_eq_true, if_false, List.length_cons]
      omega

theorem getD_set_self (l : List α) (i : ℕ) (x d : α) (h : i < l.length) :
    (l.set i x).getD i d = x := by
  rw [List.getD_eq_getElem _ _ (by simpa using h)]
  exact List.getElem_set_self _

theorem getD_irrel (l : List α) (i : ℕ) (d1 d2 : α) (h : i < l.length) :
    l.getD i d1 = l.getD i d2 := by
  rw [List.getD_eq_getElem _ _ h, List.getD_eq_getElem _ _ h]

theorem mapf_getD (f : Cluster → β) (cs : List Cluster) (i : ℕ) (d : β)
    (h : i < cs.length) : (cs.map f).getD i d = f (cs.getD i []) := by
  rw [List.getD_eq_getElem _ _ (by simpa using h), List.getElem_map,
    List.getD_eq_getElem _ _ h]

theorem hasKey_iff (c : Cluster) (n : String) :
    hasKey c n = true ↔ n ∈ c.map Prod.fst := by
  simp [hasKey]

theorem count_allKeys (a : String) (cs : List Cluster) :
    (allKeys cs).count a =
      (cs.map (fun c => (c.map Prod.fst).count a)).sum := by
  unfold allKeys
  rw [List.count_flatten, List.map_map]
  rfl

theorem wf_unique_key {cs : List Cluster} (hwf : ClustersWF cs)
    {idx t : ℕ} (hidx : idx < cs.length) (ht : t < cs.length)
    (hne : t ≠ idx) {name : String}
    (hkey : hasKey (cs.getD idx []) name = true) :
    ((cs.getD idx []).map Prod.fst).count name = 1 ∧
    hasKey (cs.getD t []) name = false ∧
    ((cs.getD t []).map Prod.fst).count name = 0 := by
  have htot : (allKeys cs).count name ≤ 1 :=
    List.nodup_iff_count_le_one.mp hwf name
  rw [count_allKeys] at htot
  have hmap : ∀ j, j < cs.length →
      (cs.map (fun c => ((c.map Prod.fst).count name))).getD j 0 =
        ((cs.getD j []).map Prod.fst).count name := by
    intro j hj
    exact mapf_getD (fun c => ((c.map Prod.fst).count name)) cs j 0 hj
  have hidx1 : 1 ≤ ((cs.getD idx []).map Prod.fst).count name := by
    have := (hasKey_iff _ _).mp hkey
    exact List.count_pos_iff.mpr this
  have hpair := two_getD_le_sum
    (cs.map (fun c => ((c.map Prod.fst).count name))) idx t
    (by simpa using hidx) (by simpa using ht) (fun hc => hne hc.symm)
  rw [hmap idx hidx, hmap t ht] at hpair
  have hcT : ((cs.getD t []).map Prod.fst).count name = 0 := by omega
  refine ⟨by omega, ?_, hcT⟩
  cases hhk : hasKey (cs.getD t []) name with
  | false => rfl
  | true =>
    have := List.count_pos_iff.mpr ((hasKey_iff _ _).mp hhk)
    omega

theorem updateKey_append (c : Cluster) (n : String) (g : Geocoding)
    (h : hasKey c n = false) : updateKey c n g = c ++ [(n, g)] := by
  unfold updateKey hasKey
  unfold hasKey at h
  rw [h]
  simp

theorem grow_update_spec (st : PassState) (name : String) (g : Geocoding)
    (idx t : ℕ) (hcoh : Coh st) (hwf : ClustersWF st.clusters)
    (hidx : idx < st.clusters.length) (ht : t < st.clusters.length)
    (hne : t ≠ idx)
    (hkey : hasKey (st.clusters.getD idx []) name = true)
    (htne : (st.clusters.getD t []) ≠ []) :
    Coh (grow_update name g st idx t) ∧
    ClustersWF (grow_update name g st idx t).clusters ∧
    (grow_update name g st idx t).gain = measure_gain (trial_lens st idx t) ∧
    (∀ a, (allKeys (grow_update name g st idx t).clusters).count a =
      (allKeys st.clusters).count a) ∧
    (grow_update name g st idx t).clusters.length = st.clusters.length ∧
    hasKey ((grow_update name g st idx t).clusters.getD t []) name = true ∧
    countNE (grow_update name g st idx t).clusters ≤ countNE st.clusters ∧
    (grow_update name g st idx t).moves = st.moves + 1 ∧
    (lensOf (grow_update name g st idx t).clusters).sum =
      (lensOf st.clusters).sum := by
  obtain ⟨hcnt1, hkeyT, hcntT⟩ := wf_unique_key hwf hidx ht hne hkey
  set cs := st.clusters with hcs
  set cI := cs.getD idx [] with hcI
  set cT := cs.getD t [] with hcT
  set cI' := popKey cI name with hcI'
  have hc1T : (cs.set idx cI').getD t [] = cT :=
    getD_set_ne' cs idx t cI' [] (fun hc => hne hc.symm)
  have hupd : updateKey ((cs.set idx cI').getD t []) name g =
      cT ++ [(name, g)] := by
    rw [hc1T]
    exact updateKey_append cT name g hkeyT
  have hc2 : (grow_update name g st idx t).clusters =
      (cs.set idx cI').set t (cT ++ [(name, g)]) := by
    unfold grow_update
    simp only
    rw [hupd]
  have hlenI : (cI'.length : ℤ) = (cI.length : ℤ) - 1 := by
    have := popKey_length_add cI name
    rw [hcnt1] at this
    push_cast [← this]
    ring
  have hlensEq : lensOf ((cs.set idx cI').set t (cT ++ [(name, g)])) =
      ((lensOf cs).set idx ((cI.length : ℤ) - 1)).set t ((cT.length : ℤ) + 1) := by
    unfold lensOf
    rw [map_set' _ _ t, map_set' _ _ idx]
    rw [hlenI]
    congr 1
    simp only [List.length_append, List.length_cons, List.length_nil]
    push_cast
    ring
  have htrial : trial_lens st idx t =
      ((lensOf cs).set idx ((cI.length : ℤ) - 1)).set t ((cT.length : ℤ) + 1) := by
    unfold trial_lens bumped_lens
    rw [hcoh.1, ← hcs]
    have h1 : (lensOf cs).getD t 0 = (cT.length : ℤ) :=
      mapf_getD (fun c : Cluster => (c.length : ℤ)) cs t 0 ht
    rw [h1]
    rw [getD_set_ne' _ _ _ _ _ hne]
    have h2 : (lensOf cs).getD idx 0 = (cI.length : ℤ) :=
      mapf_getD (fun c : Cluster => (c.length : ℤ)) cs idx 0 hidx
    rw [h2]
    exact (List.set_comm _ _ _ (fun hc => hne hc.symm)).symm
  have hgain : (grow_update name g st idx t).gain =
      measure_gain (trial_lens st idx t) := by
    have hg0 : (grow_update name g st idx t).gain =
        measure_gain (lensOf (grow_update name g st idx t).clusters) := rfl
    rw [hg0, hc2, hlensEq, htrial]
  have hcount : ∀ a, (allKeys (grow_update name g st idx t).clusters).count a =
      (allKeys cs).count a := by
    intro a
    rw [hc2, count_allKeys, count_allKeys]
    rw [map_set' _ _ t, map_set' _ _ idx]
    set N := cs.map (fun c => (c.map Prod.fst).count a) with hN
    have hNidx : idx < N.length := by simpa [hN] using hidx
    have hNt : t < N.length := by simpa [hN] using ht
    have hs1 := sum_set_nat (N.set idx ((cI'.map Prod.fst).count a)) t
      (((cT ++ [(name, g)]).map Prod.fst).count a) (by simpa using hNt)
    have hs2 := sum_set_nat N idx ((cI'.map Prod.fst).count a) hNidx
    have hgt : (N.set idx ((cI'.map Prod.fst).count a)).getD t 0 =
        N.getD t 0 := getD_set_ne' _ _ _ _ _ (fun hc => hne hc.symm)
    have hNgI : N.getD idx 0 = (cI.map Prod.fst).count a :=
      mapf_getD (fun c : Cluster => (c.map Prod.fst).count a) cs idx 0 hidx
    have hNgT : N.getD t 0 = (cT.map Prod.fst).count a :=
      mapf_getD (fun c : Cluster => (c.map Prod.fst).count a) cs t 0 ht
    have hxI : (cI'.map Prod.fst).count a =
        if a = name then 0 else (cI.map Prod.fst).count a :=
      popKey_keys_count cI name a
    have hyT : ((cT ++ [(name, g)]).map Prod.fst).count a =
        (cT.map Prod.fst).count a + (if a = name then 1 else 0) := by
      rw [List.map_append, List.count_append]
      by_cases ha : a = name
      · subst ha
        simp
      · have hne2 : (name == a) = false := by
          simp only [beq_eq_false_iff_ne, ne_eq]
          exact fun hc => ha hc.symm
        have hz : ((([(name, g)]).map Prod.fst).count a) = 0 := by
          simp only [List.map_cons, List.map_nil, List.count_cons,
            List.count_nil, hne2, Bool.false_eq_true, if_false]
        rw [hz]
        simp [ha]
    by_cases ha : a = name
    · subst ha
      have hx0 : (cI'.map Prod.fst).count a = 0 := by
        rw [hxI]
        simp
      have hyv : ((cT ++ [(a, g)]).map Prod.fst).count a =
          (cT.map Prod.fst).count a + 1 := by
        rw [hyT]
        simp
      omega
    · have hxv : (cI'.map Prod.fst).count a = (cI.map Prod.fst).count a := by
        rw [hxI]
        simp [ha]
      have hyv : ((cT ++ [(name, g)]).map Prod.fst).count a =
          (cT.map Prod.fst).count a := by
        rw [hyT]
        simp [ha]
      omega
  refine ⟨?_, ?_, hgain, hcount, ?_, ?_, ?_, rfl, ?_⟩
  · constructor <;> rfl
  · unfold ClustersWF
    rw [List.nodup_iff_count_le_one]
    intro a
    rw [hcount a]
    exact List.nodup_iff_count_le_one.mp hwf a
  · rw [hc2]
    simp
  · rw [hc2]
    rw [getD_set_self _ _ _ _ (by simpa using ht)]
    rw [hasKey_iff]
    simp
  · rw [hc2]
    unfold countNE
    rw [← List.countP_eq_length_filter, ← List.countP_eq_length_filter]
    set p : Cluster → Bool := fun c => !c.isEmpty with hp
    have hstep1 := countP_set p (cs.set idx cI') t (cT ++ [(name, g)])
      (by simpa using ht)
    have hstep2 := countP_set p cs idx cI' hidx
    have hg1 : (cs.set idx cI').getD t (cT ++ [(name, g)]) = cT := by
      rw [getD_irrel _ _ _ ([]) (by simpa using ht)]
      exact hc1T
    have hg2 : cs.getD idx cI' = cI := by
      rw [getD_irrel _ _ _ ([]) hidx]
    rw [hg1] at hstep1
    rw [hg2] at hstep2
    have hpT : p cT = true := by
      simp only [hp, Bool.not_eq_true']
      cases hcTcase : cT with
      | nil => exact absurd hcTcase htne
      | cons x xs => rfl
    have hpT' : p (cT ++ [(name, g)]) = true := by
      simp only [hp, Bool.not_eq_true']
      cases hcc : cT ++ [(name, g)] with
      | nil => simp at hcc
      | cons x xs => rfl
    have hpI : p cI = true := by
      simp only [hp, Bool.not_eq_true']
      cases hcIcase : cI with
      | nil =>
        rw [hcIcase] at hkey
        simp [hasKey] at hkey
      | cons x xs => rfl
    rw [hpT, hpT'] at hstep1
    rw [hpI] at hstep2
    by_cases hpI' : p cI' = true
    · rw [hpI'] at hstep2
      omega
    · rw [Bool.not_eq_true] at hpI'
      rw [hpI'] at hstep2
      simp only [if_true, if_false, Bool.false_eq_true] at hstep1 hstep2
      omega
  · rw [hc2, hlensEq]
    have hl1 : idx < (lensOf cs).length := by simpa [lensOf] using hidx
    have hl2 : t < ((lensOf cs).set idx ((cI.length : ℤ) - 1)).length := by
      simpa [lensOf] using ht
    rw [sum_set_int _ _ _ hl2, sum_set_int _ _ _ hl1]
    have hgt : ((lensOf cs).set idx ((cI.length : ℤ) - 1)).getD t 0 =
        (cT.length : ℤ) := by
      rw [getD_set_ne' _ _ _ _ _ (fun hc => hne hc.symm)]
      exact mapf_getD (fun c : Cluster => (c.length : ℤ)) cs t 0 ht
    have hgi : (lensOf cs).getD idx 0 = (cI.length : ℤ) :=
      mapf_getD (fun c : Cluster => (c.length : ℤ)) cs idx 0 hidx
    rw [hgt, hgi]
    push_cast
    ring

theorem match_to_cluster_spec {P : GeoParams} {clusters : List Cluster}
    {idx : ℕ} {g : Geocoding} {t : ℕ}
    (h : match_to_cluster P clusters idx g = some t) :
    t < clusters.length ∧ t ≠ idx ∧ clusters.getD t [] ≠ [] ∧
    (check_intersects g (clusters.getD t []) = true ∨
      check_near P g (clusters.getD t []) = true) := by
  unfold match_to_cluster at h
  have hp := List.find?_some h
  have hmem := List.mem_of_find?_eq_some h
  rw [List.mem_range] at hmem
  simp only [Bool.and_eq_true, Bool.or_eq_true, decide_eq_true_eq] at hp
  exact ⟨hmem, hp.1.1, List.length_pos.mp hp.1.2, hp.2⟩

theorem match_to_cluster_none {P : GeoParams} {clusters : List Cluster}
    {idx : ℕ} {g : Geocoding}
    (h : match_to_cluster P clusters idx g = none) :
    ∀ n, n < clusters.length → n ≠ idx → clusters.getD n [] ≠ [] →
      check_intersects g (clusters.getD n []) = false ∧
      check_near P g (clusters.getD n []) = false := by
  intro n hn hne hne2
  unfold match_to_cluster at h
  rw [List.find?_eq_none] at h
  have := h n (List.mem_range.mpr hn)
  simp only [Bool.and_eq_true, Bool.or_eq_true, decide_eq_true_eq,
    not_and, not_or] at this
  have h2 := this ⟨hne, List.length_pos.mpr hne2⟩
  exact ⟨Bool.not_eq_true _ ▸ h2.1, Bool.not_eq_true _ ▸ h2.2⟩

theorem match_to_cluster_some_of_match {P : GeoParams}
    {clusters : List Cluster} {idx : ℕ} {g : Geocoding} {n : ℕ}
    (hn : n < clusters.length) (hne : n ≠ idx)
    (hnonempty : clusters.getD n [] ≠ [])
    (hmatch : check_intersects g (clusters.getD n []) = true ∨
      check_near P g (clusters.getD n []) = true) :
    ∃ t, match_to_cluster P clusters idx g = some t := by
  unfold match_to_cluster
  have : ((List.range clusters.length).find? (fun n =>
      decide (n ≠ idx) && decide (0 < (clusters.getD n []).length) &&
        (check_intersects g (clusters.getD n []) ||
          check_near P g (clusters.getD n [])))).isSome = true := by
    rw [List.find?_isSome]
    refine ⟨n, List.mem_range.mpr hn, ?_⟩
    simp only [Bool.and_eq_true, Bool.or_eq_true, decide_eq_true_eq]
    exact ⟨⟨hne, List.length_pos.mpr hnonempty⟩, hmatch⟩
  obtain ⟨t, ht⟩ := Option.isSome_iff_exists.mp this
  exact ⟨t, ht⟩

theorem try_move_cases (P : GeoParams) (name : String) (st : PassState)
    (idx : ℕ) (g : Geocoding) :
    (try_move P name st idx g = (st, idx) ∧
      (match_to_cluster P st.clusters idx g = none ∨
        ∃ t, match_to_cluster P st.clusters idx g = some t ∧
          ¬ st.gain < measure_gain (trial_lens st idx t))) ∨
    (∃ t, match_to_cluster P st.clusters idx g = some t ∧
      st.gain < measure_gain (trial_lens st idx t) ∧
      try_move P name st idx g = (grow_update name g st idx t, t)) := by
  unfold try_move
  cases hm : match_to_cluster P st.clusters idx g with
  | none => exact Or.inl ⟨rfl, Or.inl rfl⟩
  | some t =>
    by_cases hg : st.gain < measure_gain (trial_lens st idx t)
    · right
      refine ⟨t, rfl, hg, ?_⟩
      show (if st.gain < measure_gain (trial_lens st idx t) then
        (grow_update name g st idx t, t) else (st, idx)) = _
      rw [if_pos hg]
    · left
      refine ⟨?_, Or.inr ⟨t, rfl, hg⟩⟩
      show (if st.gain < measure_gain (trial_lens st idx t) then
        (grow_update name g st idx t, t) else (st, idx)) = _
      rw [if_neg hg]

theorem try_move_post (P : GeoParams) (name : String) (st : PassState)
    (idx : ℕ) (g : Geocoding) (hcoh : Coh st)
    (hwf : ClustersWF st.clusters) (hidx : idx < st.clusters.length)
    (hkey : hasKey (st.clusters.getD idx []) name = true) :
    Coh (try_move P name st idx g).1 ∧
    ClustersWF (try_move P name st idx g).1.clusters ∧
    st.gain ≤ (try_move P name st idx g).1.gain ∧
    (try_move P name st idx g).2 < (try_move P name st idx g).1.clusters.length ∧
    hasKey ((try_move P name st idx g).1.clusters.getD
      (try_move P name st idx g).2 []) name = true ∧
    (∀ a, (allKeys (try_move P name st idx g).1.clusters).count a =
      (allKeys st.clusters).count a) ∧
    (try_move P name st idx g).1.clusters.length = st.clusters.length ∧
    countNE (try_move P name st idx g).1.clusters ≤ countNE st.clusters ∧
    (lensOf (try_move P name st idx g).1.clusters).sum =
      (lensOf st.clusters).sum ∧
    st.moves ≤ (try_move P name st idx g).1.moves ∧
    ((try_move P name st idx g).1.gain = st.gain →
      try_move P name st idx g = (st, idx)) ∧
    ((try_move P name st idx g).1.moves = st.moves →
      try_move P name st idx g = (st, idx)) := by
  rcases try_move_cases P name st idx g with ⟨heq, -⟩ | ⟨t, hm, hg, heq⟩
  · rw [heq]
    exact ⟨hcoh, hwf, le_refl _, hidx, hkey, fun a => rfl, rfl, le_refl _,
      rfl, le_refl _, fun _ => rfl, fun _ => rfl⟩
  · obtain ⟨ht, htne, htnonempty, -⟩ := match_to_cluster_spec hm
    obtain ⟨hcoh', hwf', hgain', hcount', hlen', hkey', hcne', hmoves',
      hsum'⟩ := grow_update_spec st name g idx t hcoh hwf hidx ht htne
      hkey htnonempty
    rw [heq]
    refine ⟨hcoh', hwf', ?_, ?_, ?_, hcount', hlen', hcne', ?_, ?_, ?_, ?_⟩
    · rw [hgain']
      exact le_of_lt hg
    · rw [hlen']
      exact ht
    · exact hkey'
    · exact hsum'
    · rw [hmoves']
      omega
    · intro hc
      rw [hgain'] at hc
      exact absurd hc.symm (ne_of_lt hg)
    · intro hc
      rw [hmoves'] at hc
      omega

theorem get_idx_spec {cs : List Cluster} {n : String} {i : ℕ}
    (h : get_idx cs n = some i) :
    i < cs.length ∧ hasKey (cs.getD i []) n = true := by
  unfold get_idx at h
  rw [List.findIdx?_eq_some_iff_findIdx_eq] at h
  obtain ⟨hlen, hfi⟩ := h
  refine ⟨hlen, ?_⟩
  have := @List.findIdx_getElem _ (fun c => hasKey c n) cs
    (by rw [hfi]; exact hlen)
  rw [List.getD_eq_getElem _ _ hlen]
  have hgi : cs[List.findIdx (fun c => hasKey c n) cs] = cs[i] := by
    congr 1
  rw [hgi] at this
  exact this

theorem get_idx_isSome {cs : List Cluster} {n : String}
    (h : n ∈ allKeys cs) : ∃ i, get_idx cs n = some i := by
  unfold allKeys at h
  rw [List.mem_flatten] at h
  obtain ⟨l, hl, hnl⟩ := h
  obtain ⟨c, hc, hcl⟩ := List.mem_map.mp hl
  unfold get_idx
  refine ⟨_, List.findIdx?_eq_some_of_exists ⟨c, hc, ?_⟩⟩
  rw [hasKey_iff, hcl]
  exact hnl

theorem wf_get_idx {cs : List Cluster} {n : String} {i : ℕ}
    (hwf : ClustersWF cs) (hi : i < cs.length)
    (hkey : hasKey (cs.getD i []) n = true) : get_idx cs n = some i := by
  have hmem : n ∈ allKeys cs := by
    unfold allKeys
    rw [List.mem_flatten]
    refine ⟨(cs.getD i []).map Prod.fst, ?_, (hasKey_iff _ _).mp hkey⟩
    apply List.mem_map.mpr
    refine ⟨cs.getD i [], ?_, rfl⟩
    rw [List.getD_eq_getElem _ _ hi]
    exact List.getElem_mem hi
  obtain ⟨j, hj⟩ := get_idx_isSome hmem
  obtain ⟨hjlen, hjkey⟩ := get_idx_spec hj
  by_cases hij : j = i
  · rw [hij] at hj
    exact hj
  · exfalso
    have := wf_unique_key hwf hjlen hi (fun hc => hij hc.symm) hjkey
    rw [this.2.1] at hkey
    exact Bool.false_ne_true hkey

theorem place_fold_post (P : GeoParams) (name : String)
    (gl : List Geocoding) (p : PassState × ℕ) (hcoh : Coh p.1)
    (hwf : ClustersWF p.1.clusters) (hidx : p.2 < p.1.clusters.length)
    (hkey : hasKey (p.1.clusters.getD p.2 []) name = true) :
    Coh (gl.foldl (fun q g => try_move P name q.1 q.2 g) p).1 ∧
    ClustersWF (gl.foldl (fun q g => try_move P name q.1 q.2 g) p).1.clusters ∧
    p.1.gain ≤ (gl.foldl (fun q g => try_move P name q.1 q.2 g) p).1.gain ∧
    (∀ a, (allKeys (gl.foldl (fun q g => try_move P name q.1 q.2 g)
        p).1.clusters).count a = (allKeys p.1.clusters).count a) ∧
    (gl.foldl (fun q g => try_move P name q.1 q.2 g) p).1.clusters.length =
      p.1.clusters.length ∧
    countNE (gl.foldl (fun q g => try_move P name q.1 q.2 g)
      p).1.clusters ≤ countNE p.1.clusters ∧
    (lensOf (gl.foldl (fun q g => try_move P name q.1 q.2 g)
      p).1.clusters).sum = (lensOf p.1.clusters).sum ∧
    p.1.moves ≤ (gl.foldl (fun q g => try_move P name q.1 q.2 g)
      p).1.moves ∧
    ((gl.foldl (fun q g => try_move P name q.1 q.2 g) p).1.gain =
        p.1.gain →
      gl.foldl (fun q g => try_move P name q.1 q.2 g) p = p) ∧
    ((gl.foldl (fun q g => try_move P name q.1 q.2 g) p).1.moves =
        p.1.moves →
      gl.foldl (fun q g => try_move P name q.1 q.2 g) p = p) := by
  induction gl generalizing p with
  | nil =>
    exact ⟨hcoh, hwf, le_refl _, fun a => rfl, rfl, le_refl _, rfl,
      le_refl _, fun _ => rfl, fun _ => rfl⟩
  | cons g gl ih =>
    rw [List.foldl_cons]
    obtain ⟨qcoh, qwf, qgain, qidx, qkey, qcount, qlen, qcne, qsum,
      qmoves, qgaineq, qmoveseq⟩ :=
      try_move_post P name p.1 p.2 g hcoh hwf hidx hkey
    obtain ⟨rcoh, rwf, rgain, rcount, rlen, rcne, rsum, rmoves, rgaineq,
      rmoveseq⟩ := ih (try_move P name p.1 p.2 g) qcoh qwf qidx qkey
    refine ⟨rcoh, rwf, le_trans qgain rgain, ?_, ?_, le_trans rcne qcne,
      ?_, le_trans qmoves rmoves, ?_, ?_⟩
    · intro a
      rw [rcount a, qcount a]
    · rw [rlen, qlen]
    · rw [rsum, qsum]
    · intro hg
      have hq : (try_move P name p.1 p.2 g).1.gain = p.1.gain :=
        le_antisymm (by rw [← hg]; exact rgain) qgain
      have hqp : try_move P name p.1 p.2 g = (p.1, p.2) := qgaineq hq
      rw [hqp] at hg ⊢
      rw [Prod.mk.eta] at hg ⊢
      obtain ⟨-, -, -, -, -, -, -, -, hgaineq', -⟩ :=
        ih p hcoh hwf hidx hkey
      exact hgaineq' hg
    · intro hm
      have hq : (try_move P name p.1 p.2 g).1.moves = p.1.moves :=
        le_antisymm (by rw [← hm]; exact rmoves) qmoves
      have hqp : try_move P name p.1 p.2 g = (p.1, p.2) := qmoveseq hq
      rw [hqp] at hm ⊢
      rw [Prod.mk.eta] at hm ⊢
      obtain ⟨-, -, -, -, -, -, -, -, -, hmoveseq'⟩ :=
        ih p hcoh hwf hidx hkey
      exact hmoveseq' hm

theorem pass_fold_post (P : GeoParams)
    (cands : List (String × List Geocoding)) (st : PassState)
    (hcoh : Coh st) (hwf : ClustersWF st.clusters) (st' : PassState)
    (hrun : cands.foldlM (place_step P) st = some st') :
    Coh st' ∧ ClustersWF st'.clusters ∧ st.gain ≤ st'.gain ∧
    (∀ a, (allKeys st'.clusters).count a = (allKeys st.clusters).count a) ∧
    st'.clusters.length = st.clusters.length ∧
    countNE st'.clusters ≤ countNE st.clusters ∧
    (lensOf st'.clusters).sum = (lensOf st.clusters).sum ∧
    st.moves ≤ st'.moves ∧
    (st'.gain = st.gain → st' = st) ∧
    (st'.moves = st.moves → st' = st) := by
  induction cands generalizing st with
  | nil =>
    simp only [List.foldlM_nil, Option.pure_def, Option.some.injEq] at hrun
    subst hrun
    exact ⟨hcoh, hwf, le_refl _, fun a => rfl, rfl, le_refl _, rfl,
      le_refl _, fun _ => rfl, fun _ => rfl⟩
  | cons e rest ih =>
    rw [List.foldlM_cons] at hrun
    cases hps : place_step P st e with
    | none =>
      rw [hps] at hrun
      exact absurd hrun (by simp)
    | some st1 =>
      rw [hps] at hrun
      rw [show ((some st1 >>= fun s => List.foldlM (place_step P) s rest) =
        List.foldlM (place_step P) st1 rest) from rfl] at hrun
      unfold place_step at hps
      cases hgi : get_idx st.clusters e.1 with
      | none =>
        rw [hgi] at hps
        exact absurd hps (by simp)
      | some i =>
        rw [hgi] at hps
        obtain ⟨hilen, hikey⟩ := get_idx_spec hgi
        obtain ⟨fcoh, fwf, fgain, fcount, flen, fcne, fsum, fmoves,
          fgaineq, fmoveseq⟩ :=
          place_fold_post P e.1 e.2 (st, i) hcoh hwf hilen hikey
        have hst1 : st1 =
            (e.2.foldl (fun q g => try_move P e.1 q.1 q.2 g) (st, i)).1 :=
          (Option.some.inj hps).symm
        obtain ⟨rcoh, rwf, rgain, rcount, rlen, rcne, rsum, rmoves,
          rgaineq, rmoveseq⟩ := ih st1 (hst1 ▸ fcoh) (hst1 ▸ fwf) hrun
        rw [hst1] at rgain rcount rlen rcne rsum rmoves
        refine ⟨rcoh, rwf, le_trans fgain rgain, ?_, ?_,
          le_trans rcne fcne, ?_, le_trans fmoves rmoves, ?_, ?_⟩
        · intro a
          rw [rcount a, fcount a]
        · rw [rlen, flen]
        · rw [rsum, fsum]
        · intro hg
          have hq : (e.2.foldl (fun q g => try_move P e.1 q.1 q.2 g)
              (st, i)).1.gain = st.gain :=
            le_antisymm (by rw [← hg]; exact rgain) fgain
          have hfold := fgaineq hq
          have hst1st : st1 = st := by
            rw [hst1, hfold]
          rw [hst1st] at hrun
          obtain ⟨-, -, -, -, -, -, -, -, hge, -⟩ := ih st hcoh hwf hrun
          exact hge hg
        · intro hm
          have hq : (e.2.foldl (fun q g => try_move P e.1 q.1 q.2 g)
              (st, i)).1.moves = st.moves :=
            le_antisymm (by rw [← hm]; exact rmoves) fmoves
          have hfold := fmoveseq hq
          have hst1st : st1 = st := by
            rw [hst1, hfold]
          rw [hst1st] at hrun
          obtain ⟨-, -, -, -, -, -, -, -, -, hme⟩ := ih st hcoh hwf hrun
          exact hme hm

theorem pass_fold_isSome (P : GeoParams)
    (cands : List (String × List Geocoding)) (st : PassState)
    (hcoh : Coh st) (hwf : ClustersWF st.clusters)
    (hnames : ∀ e ∈ cands, e.1 ∈ allKeys st.clusters) :
    ∃ st', cands.foldlM (place_step P) st = some st' := by
  induction cands generalizing st with
  | nil => exact ⟨st, rfl⟩
  | cons e rest ih =>
    obtain ⟨i, hi⟩ := get_idx_isSome (hnames e (List.mem_cons_self e rest))
    obtain ⟨hilen, hikey⟩ := get_idx_spec hi
    obtain ⟨fcoh, fwf, -, fcount, -, -, -, -, -, -⟩ :=
      place_fold_post P e.1 e.2 (st, i) hcoh hwf hilen hikey
    have hps : place_step P st e =
        some (e.2.foldl (fun q g => try_move P e.1 q.1 q.2 g) (st, i)).1 := by
      unfold place_step
      rw [hi]
    have hnames' : ∀ e' ∈ rest, e'.1 ∈
        allKeys (e.2.foldl (fun q g => try_move P e.1 q.1 q.2 g)
          (st, i)).1.clusters := by
      intro e' he'
      have := hnames e' (List.mem_cons_of_mem e he')
      rw [← List.count_pos_iff] at this ⊢
      rw [fcount e'.1]
      exact this
    obtain ⟨st', hst'⟩ := ih _ fcoh fwf hnames'
    refine ⟨st', ?_⟩
    rw [List.foldlM_cons, hps]
    simpa using hst'

theorem run_pass_post (P : GeoParams) (clusters : List Cluster)
    (cands : List (String × List Geocoding)) (st' : PassState)
    (hwf : ClustersWF clusters)
    (hrun : run_pass P clusters cands = some st') :
    Coh st' ∧ ClustersWF st'.clusters ∧
    measure_gain (lensOf clusters) ≤ st'.gain ∧
    (∀ a, (allKeys st'.clusters).count a = (allKeys clusters).count a) ∧
    st'.clusters.length = clusters.length ∧
    countNE st'.clusters ≤ countNE clusters ∧
    (lensOf st'.clusters).sum = (lensOf clusters).sum ∧
    (st'.gain = measure_gain (lensOf clusters) →
      st'.clusters = clusters ∧ st'.moves = 0) := by
  have h := pass_fold_post P cands (initPass clusters) ⟨rfl, rfl⟩ hwf st' hrun
  obtain ⟨hcoh, hwf', hgain, hcount, hlen, hcne, hsum, -, hgaineq, -⟩ := h
  exact ⟨hcoh, hwf', hgain, hcount, hlen, hcne, hsum,
    fun hg => by rw [hgaineq hg]; exact ⟨rfl, rfl⟩⟩

theorem run_pass_isSome (P : GeoParams) (clusters : List Cluster)
    (cands : List (String × List Geocoding))
    (hwf : ClustersWF clusters)
    (hnames : ∀ e ∈ cands, e.1 ∈ allKeys clusters) :
    ∃ st', run_pass P clusters cands = some st' :=
  pass_fold_isSome P cands (initPass clusters) ⟨rfl, rfl⟩ hwf hnames

/-- Witness for backquery_heap_frame_c9 at a one-cell heap. -/
theorem backquery_heap_frame_c9_witness :
    ((backquery_call_heap ["corpus text"] (cosineSim (fun _ => 1))
      BACKQUERY_THRESHOLD ⟨none⟩ ⟨[wGeoGood]⟩ [("p", [0])]
      "Geneva Switzerland lake").2.1).cells[0]? = some wGeoGood ∧
    (backquery_call_heap ["corpus text"] (cosineSim (fun _ => 1))
      BACKQUERY_THRESHOLD ⟨none⟩ ⟨[wGeoGood]⟩ [("p", [0])]
      "Geneva Switzerland lake").1 =
      ⟨some ["corpus text", "Geneva Switzerland lake"]⟩ := by
  have h := backquery_heap_frame_c9 ["corpus text"] (cosineSim (fun _ => 1))
    BACKQUERY_THRESHOLD ⟨none⟩ ⟨[wGeoGood]⟩ [("p", [0])]
    "Geneva Switzerland lake"
  refine ⟨?_, h.2⟩
  rw [h.1 0 (by decide)]
  rfl

theorem allKeys_perm {cs cs' : List Cluster} (h : cs.Perm cs') :
    (allKeys cs).Perm (allKeys cs') := by
  unfold allKeys
  exact (h.map (fun c => c.map Prod.fst)).flatten

theorem clustersWF_perm {cs cs' : List Cluster} (h : cs.Perm cs')
    (hwf : ClustersWF cs) : ClustersWF cs' :=
  (allKeys_perm h).nodup_iff.mp hwf

theorem countNE_perm {cs cs' : List Cluster} (h : cs.Perm cs') :
    countNE cs = countNE cs' := by
  unfold countNE
  exact (h.filter (fun c => !c.isEmpty)).length_eq

theorem measure_gain_perm {cs cs' : List Cluster} (h : cs.Perm cs') :
    measure_gain (lensOf cs) = measure_gain (lensOf cs') := by
  unfold measure_gain lensOf
  exact ((h.map (fun c => (c.length : ℤ))).map (fun l => l ^ 2)).sum_eq

theorem gainN_perm {cs cs' : List Cluster} (h : cs.Perm cs') :
    gainN cs = gainN cs' := by
  unfold gainN
  exact (h.map (fun c => c.length ^ 2)).sum_eq

/-- C1: during growth, a trial move of a candidate location is applied
only if the first cluster distinct from the current one that is nonempty
and proximal to the candidate (bounding-box/point intersection, or a
member within max_dist) exists AND the sum of squared cluster sizes
strictly increases under the move; whenever a move is applied the
objective strictly increases, and the state, hence the objective, is
unchanged otherwise. -/
theorem try_move_c1 (P : GeoParams) (name : String) (st : PassState)
    (idx : ℕ) (g : Geocoding) (hcoh : Coh st)
    (hwf : ClustersWF st.clusters) (hidx : idx < st.clusters.length)
    (hkey : hasKey (st.clusters.getD idx []) name = true) :
    (try_move P name st idx g = (st, idx) ∨
      st.gain < (try_move P name st idx g).1.gain) ∧
    (try_move P name st idx g ≠ (st, idx) →
      ∃ t, match_to_cluster P st.clusters idx g = some t ∧ t ≠ idx ∧
        st.clusters.getD t [] ≠ [] ∧
        (check_intersects g (st.clusters.getD t []) = true ∨
          check_near P g (st.clusters.getD t []) = true) ∧
        st.gain < measure_gain (trial_lens st idx t) ∧
        (try_move P name st idx g).1.gain =
          measure_gain (trial_lens st idx t)) ∧
    (try_move P name st idx g = (st, idx) →
      (try_move P name st idx g).1.gain = st.gain) := by
  refine ⟨?_, ?_, fun h => by rw [h]⟩
  · rcases try_move_cases P name st idx g with ⟨heq, -⟩ | ⟨t, hm, hg, heq⟩
    · exact Or.inl heq
    · right
      obtain ⟨ht, htne, htnonempty, -⟩ := match_to_cluster_spec hm
      obtain ⟨-, -, hgain', -⟩ := grow_update_spec st name g idx t hcoh hwf
        hidx ht htne hkey htnonempty
      rw [heq]
      rw [hgain']
      exact hg
  · intro hne
    rcases try_move_cases P name st idx g with ⟨heq, -⟩ | ⟨t, hm, hg, heq⟩
    · exact absurd heq hne
    · obtain ⟨ht, htne, htnonempty, hprox⟩ := match_to_cluster_spec hm
      obtain ⟨-, -, hgain', -⟩ := grow_update_spec st name g idx t hcoh hwf
        hidx ht htne hkey htnonempty
      refine ⟨t, hm, htne, htnonempty, hprox, hg, ?_⟩
      rw [heq]
      exact hgain'

/-- Witness for try_move_c1: a concrete accepted move strictly raises
the objective. -/
theorem try_move_c1_witness :
    wStC1.gain < (try_move wParams "a" wStC1 0 wGA2).1.gain := by
  have h := try_move_c1 wParams "a" wStC1 0 wGA2 ⟨rfl, rfl⟩ (by decide)
    (by decide) (by decide)
  rcases h.1 with heq | hgt
  · exact absurd heq (by decide)
  · exact hgt

/-- C10: growth never creates a new cluster: when the loop exits via
convergence, every returned cluster is nonempty, and there are no more
returned clusters than there were nonempty clusters at the start (a
trial move only targets an already-existing nonempty cluster, so the
number of nonempty clusters never increases). -/
theorem grow_no_new_clusters_c10 (P : GeoParams)
    (shufs : ℕ → List Cluster → List Cluster)
    (cands : List (String × List Geocoding)) (fuel : ℕ)
    (clusters res : List Cluster) (moves : ℕ)
    (hperm : ∀ n l, (shufs n l).Perm l) (hwf : ClustersWF clusters)
    (hrun : grow_loop P shufs cands fuel clusters = some (res, moves, true)) :
    (∀ c ∈ res, c ≠ []) ∧ res.length ≤ countNE clusters := by
  induction fuel generalizing clusters moves with
  | zero =>
    unfold grow_loop at hrun
    simp at hrun
  | succ fuel ih =>
    rw [grow_loop] at hrun
    have hwfs : ClustersWF (shufs fuel clusters) :=
      clustersWF_perm (hperm fuel clusters).symm hwf
    cases hrp : run_pass P (shufs fuel clusters) cands with
    | none =>
      rw [hrp] at hrun
      exact absurd hrun (by simp)
    | some st =>
      rw [hrp] at hrun
      obtain ⟨-, hwf', -, -, -, hcne, -, -⟩ :=
        run_pass_post P (shufs fuel clusters) cands st hwfs hrp
      have hrun2 :
          (if st.gain = measure_gain (lensOf (shufs fuel clusters)) then
            some (st.clusters.filter (fun c => !c.isEmpty), st.moves, true)
          else
            match grow_loop P shufs cands fuel st.clusters with
            | none => none
            | some (r, m, b) => some (r, st.moves + m, b)) =
          some (res, moves, true) := hrun
      by_cases hg : st.gain = measure_gain (lensOf (shufs fuel clusters))
      · rw [if_pos hg] at hrun2
        simp only [Option.some.injEq, Prod.mk.injEq] at hrun2
        obtain ⟨h1, -, -⟩ := hrun2
        constructor
        · intro c hc
          rw [← h1] at hc
          have := (List.mem_filter.mp hc).2
          simpa using this
        · rw [← h1]
          calc (st.clusters.filter (fun c => !c.isEmpty)).length
          _ = countNE st.clusters := rfl
          _ ≤ countNE (shufs fuel clusters) := hcne
          _ = countNE clusters := countNE_perm (hperm fuel clusters)
      · rw [if_neg hg] at hrun2
        cases hrec : grow_loop P shufs cands fuel st.clusters with
        | none =>
          rw [hrec] at hrun2
          exact absurd hrun2 (by simp)
        | some r3 =>
          obtain ⟨r, m, b⟩ := r3
          rw [hrec] at hrun2
          have hrun3 : (some (r, st.moves + m, b) :
              Option (List Cluster × ℕ × Bool)) =
              some (res, moves, true) := hrun2
          simp only [Option.some.injEq, Prod.mk.injEq] at hrun3
          obtain ⟨hr, -, hb⟩ := hrun3
          subst hr
          rw [hb] at hrec
          obtain ⟨hres, hlen⟩ := ih st.clusters m hwf' hrec
          refine ⟨hres, le_trans hlen ?_⟩
          calc countNE st.clusters
          _ ≤ countNE (shufs fuel clusters) := hcne
          _ = countNE clusters := countNE_perm (hperm fuel clusters)

theorem sum_sq_le_sq_sum (l : List ℕ) :
    (l.map (fun x => x ^ 2)).sum ≤ l.sum ^ 2 := by
  induction l with
  | nil => simp
  | cons a t ih =>
    simp only [List.map_cons, List.sum_cons]
    calc a ^ 2 + (t.map (fun x => x ^ 2)).sum
    _ ≤ a ^ 2 + t.sum ^ 2 := Nat.add_le_add_left ih _
    _ ≤ (a ^ 2 + t.sum ^ 2) + 2 * a * t.sum := Nat.le_add_right _ _
    _ = (a + t.sum) ^ 2 := by ring

theorem allKeys_length (cs : List Cluster) :
    (allKeys cs).length = (cs.map (fun c => c.length)).sum := by
  unfold allKeys
  rw [List.length_flatten, List.map_map]
  simp [Function.comp_def]

theorem gainN_le_allKeys_sq (cs : List Cluster) :
    gainN cs ≤ (allKeys cs).length ^ 2 := by
  rw [allKeys_length]
  unfold gainN
  have h := sum_sq_le_sq_sum (cs.map (fun c => c.length))
  rw [List.map_map] at h
  simpa [Function.comp_def] using h

theorem measure_gain_eq_gainN (cs : List Cluster) :
    measure_gain (lensOf cs) = (gainN cs : ℤ) := by
  unfold measure_gain lensOf gainN
  induction cs with
  | nil => simp
  | cons a t ih =>
    simp only [List.map_cons, List.sum_cons, Nat.cast_add]
    rw [ih]
    push_cast
    ring

theorem grow_loop_conv (P : GeoParams)
    (shufs : ℕ → List Cluster → List Cluster)
    (cands : List (String × List Geocoding))
    (hperm : ∀ n l, (shufs n l).Perm l) :
    ∀ fuel clusters, ClustersWF clusters →
      (∀ e ∈ cands, e.1 ∈ allKeys clusters) →
      (allKeys clusters).length ^ 2 < fuel + gainN clusters →
      ∃ res moves, grow_loop P shufs cands fuel clusters =
        some (res, moves, true) := by
  intro fuel
  induction fuel with
  | zero =>
    intro clusters hwf hnames hbound
    have h := gainN_le_allKeys_sq clusters
    exact absurd hbound (by omega)
  | succ fuel ih =>
    intro clusters hwf hnames hbound
    have hpc := hperm fuel clusters
    have hwfs : ClustersWF (shufs fuel clusters) := clustersWF_perm hpc.symm hwf
    have hnames' : ∀ e ∈ cands, e.1 ∈ allKeys (shufs fuel clusters) :=
      fun e he => ((allKeys_perm hpc).mem_iff).mpr (hnames e he)
    obtain ⟨st, hst⟩ := run_pass_isSome P (shufs fuel clusters) cands hwfs hnames'
    obtain ⟨hcoh, hwf', hgain, hcount, -, -, -, -⟩ :=
      run_pass_post P (shufs fuel clusters) cands st hwfs hst
    by_cases hg : st.gain = measure_gain (lensOf (shufs fuel clusters))
    · refine ⟨st.clusters.filter (fun c => !c.isEmpty), st.moves, ?_⟩
      rw [grow_loop, hst]
      show (if st.gain = measure_gain (lensOf (shufs fuel clusters)) then
          some (st.clusters.filter (fun c => !c.isEmpty), st.moves, true)
        else
          match grow_loop P shufs cands fuel st.clusters with
          | none => none
          | some (r, m, b) => some (r, st.moves + m, b)) =
        some (st.clusters.filter (fun c => !c.isEmpty), st.moves, true)
      rw [if_pos hg]
    · have hlt : measure_gain (lensOf (shufs fuel clusters)) < st.gain :=
        lt_of_le_of_ne hgain (Ne.symm hg)
      have hperm_keys :
          (allKeys st.clusters).Perm (allKeys (shufs fuel clusters)) :=
        List.perm_iff_count.mpr hcount
      have hnames'' : ∀ e ∈ cands, e.1 ∈ allKeys st.clusters :=
        fun e he => hperm_keys.mem_iff.mpr (hnames' e he)
      have hlen_keys :
          (allKeys st.clusters).length = (allKeys clusters).length := by
        rw [hperm_keys.length_eq, (allKeys_perm hpc).length_eq]
      have hgN : gainN (shufs fuel clusters) < gainN st.clusters := by
        have h1 := measure_gain_eq_gainN (shufs fuel clusters)
        have h2 := measure_gain_eq_gainN st.clusters
        rw [h1, hcoh.2, h2] at hlt
        exact_mod_cast hlt
      have hgEq : gainN (shufs fuel clusters) = gainN clusters := gainN_perm hpc
      have hbound' :
          (allKeys st.clusters).length ^ 2 < fuel + gainN st.clusters := by
        rw [hlen_keys]
        omega
      obtain ⟨res, moves, hrec⟩ := ih st.clusters hwf' hnames'' hbound'
      refine ⟨res, st.moves + moves, ?_⟩
      rw [grow_loop, hst]
      show (if st.gain = measure_gain (lensOf (shufs fuel clusters)) then
          some (st.clusters.filter (fun c => !c.isEmpty), st.moves, true)
        else
          match grow_loop P shufs cands fuel st.clusters with
          | none => none
          | some (r, m, b) => some (r, st.moves + m, b)) =
        some (res, st.moves + moves, true)
      rw [if_neg hg, hrec]

/-- C2: GrowGeoCluster.grow terminates on every finite input: the
objective (the sum of squared cluster sizes) is bounded above by the
square of the number of places, every non-converged pass strictly
increases it, and a pass that accepts no move leaves the gain unchanged
and exits the loop, so within (number of places)^2 + 1 passes the loop
exits via the converged branch. -/
theorem grow_terminates_c2 (P : GeoParams)
    (shufs : ℕ → List Cluster → List Cluster)
    (cands : List (String × List Geocoding)) (clusters : List Cluster)
    (hperm : ∀ n l, (shufs n l).Perm l) (hwf : ClustersWF clusters)
    (hnames : ∀ e ∈ cands, e.1 ∈ allKeys clusters) :
    gainN clusters ≤ (allKeys clusters).length ^ 2 ∧
    ∃ res moves,
      grow P shufs ((allKeys clusters).length ^ 2 + 1) clusters cands =
        some (res, moves, true) := by
  refine ⟨gainN_le_allKeys_sq clusters, ?_⟩
  exact grow_loop_conv P shufs cands hperm
    ((allKeys clusters).length ^ 2 + 1) clusters hwf hnames (by omega)

/-- Witness for grow_terminates_c2 on a one-place input. -/
theorem grow_terminates_c2_witness :
    gainN [[("a", wGB)]] ≤ (allKeys [[("a", wGB)]]).length ^ 2 ∧
    ∃ res moves,
      grow wParams wShufsId ((allKeys [[("a", wGB)]]).length ^ 2 + 1)
        [[("a", wGB)]] [("a", [wGB])] = some (res, moves, true) :=
  grow_terminates_c2 wParams wShufsId [("a", [wGB])] [[("a", wGB)]]
    (fun _ l => List.Perm.refl l) (by decide) (by decide)

theorem wDistFlat_symm (p q : ℤ × ℤ) : wDistFlat p q = wDistFlat q p := by
  unfold wDistFlat
  rw [abs_sub_comm p.1 q.1, abs_sub_comm p.2 q.2]

theorem geomIntersects_symm (e1 e2 : Extent) :
    geomIntersects e1 e2 = geomIntersects e2 e1 := by
  unfold geomIntersects
  rw [max_comm e1.bounds.1 e2.bounds.1,
    min_comm e1.bounds.2.2.1 e2.bounds.2.2.1,
    max_comm e1.bounds.2.1 e2.bounds.2.1,
    min_comm e1.bounds.2.2.2 e2.bounds.2.2.2]

theorem map_sum_set (f : ℤ → ℤ) (l : List ℤ) (k : ℕ) (v : ℤ)
    (hk : k < l.length) :
    ((l.set k v).map f).sum = (l.map f).sum - f (l.getD k 0) + f v := by
  induction l generalizing k with
  | nil => simp at hk
  | cons a as ih =>
    cases k with
    | zero =>
      simp only [List.set_cons_zero, List.map_cons, List.sum_cons,
        List.getD_cons_zero]
      ring
    | succ k =>
      simp only [List.set_cons_succ, List.map_cons, List.sum_cons,
        List.getD_cons_succ]
      rw [ih k (by simpa using hk)]
      ring

theorem trial_gain_init (s : List Cluster) (i t : ℕ) (hi : i < s.length)
    (ht : t < s.length) (hne : t ≠ i) :
    measure_gain (trial_lens (initPass s) i t) =
      measure_gain (lensOf s) + 2 * ((s.getD t []).length : ℤ)
        - 2 * ((s.getD i []).length : ℤ) + 2 := by
  have hlen : (lensOf s).length = s.length := List.length_map _ _
  have hti : t < (lensOf s).length := by rw [hlen]; exact ht
  have hii : i < (lensOf s).length := by rw [hlen]; exact hi
  have hgt : (lensOf s).getD t 0 = ((s.getD t []).length : ℤ) :=
    mapf_getD _ s t 0 ht
  have hga : (lensOf s).getD i 0 = ((s.getD i []).length : ℤ) :=
    mapf_getD _ s i 0 hi
  show measure_gain
      ((bumped_lens (lensOf s) t).set i
        ((bumped_lens (lensOf s) t).getD i 0 - 1)) = _
  have h1 : (bumped_lens (lensOf s) t).getD i 0 = (lensOf s).getD i 0 :=
    getD_set_ne' _ t i _ _ hne
  unfold measure_gain
  rw [map_sum_set (fun l => l ^ 2) (bumped_lens (lensOf s) t) i _
    (by unfold bumped_lens; rw [List.length_set]; exact hii)]
  unfold bumped_lens
  rw [map_sum_set (fun l => l ^ 2) (lensOf s) t _ hti]
  rw [show ((lensOf s).set t ((lensOf s).getD t 0 + 1)).getD i 0 =
    (lensOf s).getD i 0 from getD_set_ne' _ t i _ _ hne]
  rw [hgt, hga]
  ring

theorem place_step_post_mini (P : GeoParams) (st st1 : PassState)
    (e : String × List Geocoding) (hcoh : Coh st)
    (hwf : ClustersWF st.clusters)
    (hps : place_step P st e = some st1) :
    Coh st1 ∧ ClustersWF st1.clusters ∧ st.moves ≤ st1.moves ∧
    (st1.moves = st.moves → st1 = st) := by
  unfold place_step at hps
  cases hgi : get_idx st.clusters e.1 with
  | none =>
    rw [hgi] at hps
    exact absurd hps (by simp)
  | some i =>
    rw [hgi] at hps
    obtain ⟨hilen, hikey⟩ := get_idx_spec hgi
    obtain ⟨fcoh, fwf, -, -, -, -, -, hmono, -, hmoves⟩ :=
      place_fold_post P e.1 e.2 (st, i) hcoh hwf hilen hikey
    have h1 : st1 = (e.2.foldl (fun q g => try_move P e.1 q.1 q.2 g)
        (st, i)).1 := (Option.some.inj hps).symm
    rw [h1]
    refine ⟨fcoh, fwf, hmono, fun hm => ?_⟩
    rw [hmoves hm]

theorem fold_noop_each (P : GeoParams) :
    ∀ (cands : List (String × List Geocoding)) (st0 st' : PassState),
      Coh st0 → ClustersWF st0.clusters →
      cands.foldlM (place_step P) st0 = some st' → st'.moves = st0.moves →
      ∀ e ∈ cands, place_step P st0 e = some st0 := by
  intro cands
  induction cands with
  | nil =>
    intro st0 st' hcoh hwf hrun hm e he
    simp at he
  | cons e rest ih =>
    intro st0 st' hcoh hwf hrun hm f hf
    rw [List.foldlM_cons] at hrun
    cases hps : place_step P st0 e with
    | none =>
      rw [hps] at hrun
      exact absurd hrun (by simp)
    | some st1 =>
      rw [hps] at hrun
      rw [show ((some st1 >>= fun s => List.foldlM (place_step P) s rest) =
        List.foldlM (place_step P) st1 rest) from rfl] at hrun
      obtain ⟨hcoh1, hwf1, hm1, heq1⟩ := place_step_post_mini P st0 st1 e
        hcoh hwf hps
      obtain ⟨-, -, -, -, -, -, -, hm2, -, -⟩ :=
        pass_fold_post P rest st1 hcoh1 hwf1 st' hrun
      have hst1 : st1 = st0 := heq1 (by omega)
      rcases List.mem_cons.mp hf with hfe | hfr
      · rw [hfe, hps, hst1]
      · rw [hst1] at hrun
        exact ih st0 st' hcoh hwf hrun hm f hfr

theorem conv_reject (P : GeoParams) (s : List Cluster)
    (hwf : ClustersWF s)
    (hconv : run_pass P s (currentCands s) = some (initPass s)) :
    ∀ i, i < s.length → ∀ kv ∈ s.getD i [], ∀ t,
      match_to_cluster P s i kv.2 = some t →
      (s.getD t []).length < (s.getD i []).length := by
  intro i hi kv hkv t hmt
  have hkey : hasKey (s.getD i []) kv.1 = true := by
    rw [hasKey_iff]
    exact List.mem_map.mpr ⟨kv, hkv, rfl⟩
  have hmem : (kv.1, [kv.2]) ∈ currentCands s := by
    unfold currentCands
    refine List.mem_map.mpr ⟨kv, ?_, rfl⟩
    rw [List.mem_flatten]
    refine ⟨s.getD i [], ?_, hkv⟩
    rw [List.getD_eq_getElem _ _ hi]
    exact List.getElem_mem hi
  have hps := fold_noop_each P (currentCands s) (initPass s) (initPass s)
    ⟨rfl, rfl⟩ hwf hconv rfl (kv.1, [kv.2]) hmem
  unfold place_step at hps
  have hgi : get_idx (initPass s).clusters kv.1 = some i :=
    wf_get_idx hwf hi hkey
  rw [hgi] at hps
  have htm1 : (try_move P kv.1 (initPass s) i kv.2).1 = initPass s :=
    Option.some.inj hps
  rcases try_move_cases P kv.1 (initPass s) i kv.2 with
    ⟨-, hnone | ⟨t2, hmt2, hrej⟩⟩ | ⟨t2, hmt2, -, hupd⟩
  · have hnone2 : match_to_cluster P s i kv.2 = none := hnone
    rw [hnone2] at hmt
    exact absurd hmt (by simp)
  · have hmt3 : match_to_cluster P s i kv.2 = some t2 := hmt2
    have ht2 : t2 = t := by
      rw [hmt3] at hmt
      exact Option.some.inj hmt
    subst ht2
    obtain ⟨ht, htne, -, -⟩ := match_to_cluster_spec hmt2
    rw [trial_gain_init s i t2 hi ht htne] at hrej
    have hgain0 : (initPass s).gain = measure_gain (lensOf s) := rfl
    rw [hgain0] at hrej
    omega
  · have : (grow_update kv.1 kv.2 (initPass s) i t2).moves =
        (initPass s).moves + 1 := rfl
    rw [hupd] at htm1
    have hmv := congrArg PassState.moves htm1
    rw [this] at hmv
    simp at hmv

theorem no_cross (P : GeoParams) (s : List Cluster)
    (hsym : ∀ p q, P.distKm p q = P.distKm q p)
    (hwf : ClustersWF s)
    (hconv : run_pass P s (currentCands s) = some (initPass s)) :
    ∀ i, i < s.length → ∀ kv ∈ s.getD i [],
      match_to_cluster P s i kv.2 = none := by
  have key : ∀ n i, i < s.length → (s.getD i []).length ≤ n →
      ∀ kv ∈ s.getD i [], match_to_cluster P s i kv.2 = none := by
    intro n
    induction n with
    | zero =>
      intro i hi hlen kv hkv
      have hnil : s.getD i [] = [] :=
        List.length_eq_zero.mp (Nat.le_zero.mp hlen)
      rw [hnil] at hkv
      simp at hkv
    | succ n ih =>
      intro i hi hlen kv hkv
      cases hmc : match_to_cluster P s i kv.2 with
      | none => rfl
      | some t =>
        exfalso
        obtain ⟨ht, htne, htnonempty, hmatch⟩ := match_to_cluster_spec hmc
        have hlt := conv_reject P s hwf hconv i hi kv hkv t hmc
        have hback : ∃ q ∈ s.getD t [],
            (check_intersects q.2 (s.getD i []) = true ∨
              check_near P q.2 (s.getD i []) = true) := by
          rcases hmatch with hci | hcn
          · unfold check_intersects at hci
            rw [List.any_eq_true] at hci
            obtain ⟨q, hq, hgi⟩ := hci
            refine ⟨q, hq, Or.inl ?_⟩
            unfold check_intersects
            rw [List.any_eq_true]
            refine ⟨kv, hkv, ?_⟩
            rw [geomIntersects_symm]
            exact hgi
          · unfold check_near at hcn
            rw [List.any_eq_true] at hcn
            obtain ⟨q, hq, hd⟩ := hcn
            refine ⟨q, hq, Or.inr ?_⟩
            unfold check_near
            rw [List.any_eq_true]
            refine ⟨kv, hkv, ?_⟩
            rw [decide_eq_true_eq] at hd ⊢
            rw [hsym]
            exact hd
        obtain ⟨q, hq, hbm⟩ := hback
        have hine : i ≠ t := fun hc => htne hc.symm
        have hinonempty : s.getD i [] ≠ [] := List.ne_nil_of_mem hkv
        obtain ⟨t2, hmt2⟩ :=
          @match_to_cluster_some_of_match P s t q.2 i hi hine hinonempty hbm
        have hnone := ih t ht (by omega) q hq
        rw [hnone] at hmt2
        exact absurd hmt2 (by simp)
  intro i hi kv hkv
  exact key (s.getD i []).length i hi le_rfl kv hkv

theorem re_run_noop (P : GeoParams) (s s' : List Cluster)
    (hsym : ∀ p q, P.distKm p q = P.distKm q p)
    (hwf : ClustersWF s)
    (hconv : run_pass P s (currentCands s) = some (initPass s))
    (hs' : s'.Perm s) :
    ∀ e ∈ currentCands s,
      place_step P (initPass s') e = some (initPass s') := by
  intro e he
  unfold currentCands at he
  obtain ⟨p, hp, hep⟩ := List.mem_map.mp he
  rw [List.mem_flatten] at hp
  obtain ⟨c, hc, hpc⟩ := hp
  have hcs' : c ∈ s' := hs'.mem_iff.mpr hc
  obtain ⟨m, hm, hcm⟩ := List.mem_iff_getElem.mp hcs'
  have hwf' : ClustersWF s' := clustersWF_perm hs'.symm hwf
  have hkey : hasKey (s'.getD m []) p.1 = true := by
    rw [List.getD_eq_getElem _ _ hm, hcm, hasKey_iff]
    exact List.mem_map.mpr ⟨p, hpc, rfl⟩
  have hgi : get_idx s' p.1 = some m := wf_get_idx hwf' hm hkey
  obtain ⟨iS, hiS, hciS⟩ := List.mem_iff_getElem.mp hc
  have hkeyi : hasKey (s.getD iS []) p.1 = true := by
    rw [List.getD_eq_getElem _ _ hiS, hciS, hasKey_iff]
    exact List.mem_map.mpr ⟨p, hpc, rfl⟩
  have hnomatch : match_to_cluster P s' m p.2 = none := by
    unfold match_to_cluster
    rw [List.find?_eq_none]
    intro n hnr
    rw [List.mem_range] at hnr
    simp only [Bool.and_eq_true, Bool.or_eq_true, decide_eq_true_eq,
      not_and, not_or]
    intro hcond
    obtain ⟨hnm, hpos⟩ := hcond
    have hdmem : s'.getD n [] ∈ s' := by
      rw [List.getD_eq_getElem _ _ hnr]
      exact List.getElem_mem hnr
    have hdmemS : s'.getD n [] ∈ s := hs'.mem_iff.mp hdmem
    obtain ⟨j, hj, hjd⟩ := List.mem_iff_getElem.mp hdmemS
    have hkeyn : hasKey (s'.getD n []) p.1 = false :=
      (wf_unique_key hwf' hm hnr hnm hkey).2.1
    have heqj : s.getD j [] = s'.getD n [] := by
      rw [List.getD_eq_getElem _ _ hj, hjd]
    have hji : j ≠ iS := by
      intro hc2
      rw [hc2] at heqj
      rw [List.getD_eq_getElem _ _ hiS, hciS] at heqj
      rw [← heqj] at hkeyn
      have hck : hasKey c p.1 = true := by
        rw [hasKey_iff]
        exact List.mem_map.mpr ⟨p, hpc, rfl⟩
      rw [hck] at hkeyn
      simp at hkeyn
    have hmemc : p ∈ s.getD iS [] := by
      rw [List.getD_eq_getElem _ _ hiS, hciS]
      exact hpc
    have hnc := no_cross P s hsym hwf hconv iS hiS p hmemc
    obtain ⟨hf1, hf2⟩ := match_to_cluster_none hnc j hj hji
      (by rw [heqj]; exact fun hnil => by rw [hnil] at hpos; simp at hpos)
    constructor
    · intro hc2
      rw [heqj] at hf1
      rw [hf1] at hc2
      exact Bool.false_ne_true hc2
    · intro hc2
      rw [heqj] at hf2
      rw [hf2] at hc2
      exact Bool.false_ne_true hc2
  have htm : try_move P p.1 (initPass s') m p.2 = (initPass s', m) := by
    unfold try_move
    rw [show match_to_cluster P (initPass s').clusters m p.2 = none
      from hnomatch]
  rw [← hep]
  unfold place_step
  have hgi2 : get_idx (initPass s').clusters (p.1, [p.2]).1 = some m := hgi
  rw [hgi2]
  show some ((try_move P p.1 (initPass s') m p.2).1) = some (initPass s')
  rw [htm]

theorem fold_const (P : GeoParams) (st0 : PassState) :
    ∀ (cands : List (String × List Geocoding)),
      (∀ e ∈ cands, place_step P st0 e = some st0) →
      cands.foldlM (place_step P) st0 = some st0 := by
  intro cands
  induction cands with
  | nil => intro h; rfl
  | cons e rest ih =>
    intro h
    rw [List.foldlM_cons, h e (List.mem_cons_self e rest)]
    rw [show ((some st0 >>= fun s => List.foldlM (place_step P) s rest) =
      List.foldlM (place_step P) st0 rest) from rfl]
    exact ih (fun f hf => h f (List.mem_cons_of_mem e hf))

/-- C7: re-running the Cluster Grower on its own converged output, with
each place's resolved location as its only candidate, accepts zero moves
under every per-pass random shuffle and returns the converged clusters
themselves (the list is the re-run's first shuffle of the converged one,
so the partition is equal): convergence means one pass over the current
assignment accepts no move, and by symmetry of the proximity tests no
place is then proximal to any foreign cluster at all, so no shuffle can
expose an acceptable move. -/
theorem grow_idempotent_c7 (P : GeoParams)
    (shufs : ℕ → List Cluster → List Cluster)
    (s : List Cluster) (fuel : ℕ)
    (hsym : ∀ p q, P.distKm p q = P.distKm q p)
    (hperm : ∀ n l, (shufs n l).Perm l)
    (hwf : ClustersWF s) (hne : ∀ c ∈ s, c ≠ [])
    (hconv : run_pass P s (currentCands s) = some (initPass s)) :
    grow P shufs (fuel + 1) s (currentCands s) =
      some (shufs fuel s, 0, true) ∧ (shufs fuel s).Perm s := by
  refine ⟨?_, hperm fuel s⟩
  have hnoop := re_run_noop P s (shufs fuel s) hsym hwf hconv (hperm fuel s)
  have hrp : run_pass P (shufs fuel s) (currentCands s) =
      some (initPass (shufs fuel s)) :=
    fold_const P (initPass (shufs fuel s)) (currentCands s) hnoop
  show grow_loop P shufs (currentCands s) (fuel + 1) s = _
  rw [grow_loop, hrp]
  show (if (initPass (shufs fuel s)).gain =
      measure_gain (lensOf (shufs fuel s)) then
      some ((initPass (shufs fuel s)).clusters.filter (fun c => !c.isEmpty),
        (initPass (shufs fuel s)).moves, true)
    else
      match grow_loop P shufs (currentCands s) fuel
          (initPass (shufs fuel s)).clusters with
      | none => none
      | some (r, m, b) =>
        some (r, (initPass (shufs fuel s)).moves + m, b)) =
    some (shufs fuel s, 0, true)
  rw [if_pos (show (initPass (shufs fuel s)).gain =
    measure_gain (lensOf (shufs fuel s)) from rfl)]
  have hfeq : (shufs fuel s).filter (fun c => !c.isEmpty) =
      shufs fuel s := by
    rw [List.filter_eq_self]
    intro c hc
    have hcs : c ∈ s := (hperm fuel s).mem_iff.mp hc
    have hcne := hne c hcs
    simp [List.isEmpty_iff, hcne]
  show some ((shufs fuel s).filter (fun c => !c.isEmpty), 0, true) = _
  rw [hfeq]

/-- Witness for grow_idempotent_c7: two far-apart singleton clusters are
a converged state and the re-run accepts zero moves. -/
theorem grow_idempotent_c7_witness :
    grow wParams wShufsId (0 + 1) [[("a", wGA)], [("b", wGB)]]
      (currentCands [[("a", wGA)], [("b", wGB)]]) =
      some (wShufsId 0 [[("a", wGA)], [("b", wGB)]], 0, true) ∧
    (wShufsId 0 [[("a", wGA)], [("b", wGB)]]).Perm
      [[("a", wGA)], [("b", wGB)]] :=
  grow_idempotent_c7 wParams wShufsId [[("a", wGA)], [("b", wGB)]] 0
    (fun p q => wDistFlat_symm p q) (fun _ l => List.Perm.refl l)
    (by decide) (by decide) (by rfl)

/-- Witness for grow_no_new_clusters_c10 at a converging one-cluster run. -/
theorem grow_no_new_clusters_c10_witness :
    (∀ c ∈ ([[("a", wGB)]] : List Cluster), c ≠ []) ∧
    ([[("a", wGB)]] : List Cluster).length ≤ countNE [[("a", wGB)]] :=
  grow_no_new_clusters_c10 wParams wShufsId [("a", [wGB])] 1
    [[("a", wGB)]] [[("a", wGB)]] 0 (fun _ l => List.Perm.refl l)
    (by decide) (by rfl)

end Wtl
